import Mathlib

/-!
# Verification of the BUID generator (package `buid`)

Shallow embedding of `buid.go`: the 128-bit BUID layout, the `Process`
generator with its monotonic internal clock and 6-bit cyclic counter, and
the field accessors (`ID.Time`, `ID.Split`, `Shard.Index`, `Shard.Time`,
`Key.Time`, `Key.Process`, `Key.Counter`).

Machine integers are modelled as `Nat` (unsigned) and `Int` (for `int64`
nanosecond times), with explicit `% 2^w` wraps where Go conversions
(`byte(..)`, `uint8(..)`, `uint32(..)`) truncate.  Go's `/` and `%` on
`int64` truncate toward zero, so they are modelled with `Int.tdiv` and
`Int.tmod`; Go's conversion of a (possibly negative) `int64` to an
unsigned type is two's-complement, i.e. a Euclidean remainder, so it is
modelled with `Int.emod`.

The text codec (`MarshalText` / `UnmarshalText` / `String`) of the
repository is not present in the sources, only its tests; it is modelled
from the specification (§4.3), see `ID.MarshalText` below.
-/

namespace Buid

/-- `secondInNano` constant from `buid.go`. -/
def secondInNano : Int := 1000000000

/-- `minuteInNano` constant from `buid.go`. -/
def minuteInNano : Int := 60 * secondInNano

/-- `hourInNano` constant from `buid.go`. -/
def hourInNano : Int := 60 * minuteInNano

/-- `maxCounter = 0x3f` from `buid.go`. -/
def maxCounter : Nat := 0x3f

/-- `Epoch` from `buid.go`: `time.Date(2017, 10, 24, 0, 0, 0, 0, time.UTC).UnixNano()`,
i.e. the Unix time of 2017-10-24 00:00:00 UTC in nanoseconds. -/
def Epoch : Int := 1508803200000000000

/-- Go `uint8(x)` / `byte(x)` applied to a signed value: two's-complement
wrap (Lean's `%` on `Int` is the Euclidean remainder, giving the
nonnegative representative). -/
def u8 (x : Int) : Nat := (x % 256).toNat

/-- Go `uint32(x)` applied to a signed value: two's-complement wrap. -/
def u32 (x : Int) : Nat := (x % 4294967296).toNat

/-- An `n`-byte value: a list of `n` naturals below 256. -/
def IsBytes (n : Nat) (l : List Nat) : Prop := l.length = n ∧ ∀ b ∈ l, b < 256

instance (n : Nat) (l : List Nat) : Decidable (IsBytes n l) := by
  unfold IsBytes; infer_instance

/-- `ID` is a 16-byte BUID (Go `[16]byte`). -/
abbrev ID := List Nat

/-- `Shard` part of the BUID (Go `[8]byte`). -/
abbrev Shard := List Nat

/-- `Key` part of the BUID (Go `[8]byte`). -/
abbrev Key := List Nat

/-- The `Process` generator state from `buid.go` (`id`, `t`, `counter`);
the mutex only serializes calls and has no arithmetic content. -/
structure Process where
  id : Nat
  t : Int
  counter : Nat
deriving Repr, DecidableEq

/-- `internalTime` from `buid.go`: nanoseconds relative to `Epoch`.
Go computes `t.UnixNano() - Epoch` in `int64`, which is exact whenever the
difference fits in `int64` (`-2^63 ≤ t - Epoch < 2^63`, i.e. for every
timestamp from about 1725 onward; `UnixNano` itself is only defined from
1678).  This model keeps the subtraction exact; theorems whose hypotheses
admit timestamps far before the Epoch therefore carry an explicit
`-2^63 ≤ internalTime ts` bound, marking the domain on which the model
and the `int64` program agree. -/
def internalTime (t : Int) : Int := t - Epoch

/-- `externalTime` from `buid.go`: Unix nanoseconds from internal time. -/
def externalTime (t : Int) : Int := Epoch + t

/-- `NewProcess` from `buid.go`: seeds the internal time with `now + 1ns`. -/
def NewProcess (id : Nat) (now : Int) : Process :=
  { id := id, t := internalTime (now + 1), counter := 0 }

/-- `hour = uint32(t / hourInNano)` from `Process.NewID` (Go `/` on
`int64` truncates toward zero, hence `Int.tdiv`). -/
def hourOf (t : Int) : Nat := u32 (t.tdiv hourInNano)

/-- `minute = uint8((t % hourInNano) / minuteInNano)` from `Process.NewID`. -/
def minuteOf (t : Int) : Nat := u8 ((t.tmod hourInNano).tdiv minuteInNano)

/-- `second = uint8((t % minuteInNano) / secondInNano)` from `Process.NewID`. -/
def secondOf (t : Int) : Nat := u8 ((t.tmod minuteInNano).tdiv secondInNano)

/-- `nano = uint32(t % secondInNano)` from `Process.NewID`. -/
def nanoOf (t : Int) : Nat := u32 (t.tmod secondInNano)

/-- The packing of the 16 bytes of an ID performed at the end of
`Process.NewID` in `buid.go`, from the captured internal time `t`,
captured counter value, the shard index and the process id. -/
def packID (shard : Nat) (t : Int) (counter : Nat) (process : Nat) : ID :=
  [ (shard >>> 8) % 256, shard % 256,
    0, 0,
    (hourOf t >>> 24) % 256, (hourOf t >>> 16) % 256, (hourOf t >>> 8) % 256, hourOf t % 256,
    ((minuteOf t &&& 0x3f) <<< 2) ||| ((secondOf t &&& 0x30) >>> 4),
    ((secondOf t &&& 0x0f) <<< 4) ||| ((nanoOf t >>> 26) % 256),
    (nanoOf t >>> 18) % 256, (nanoOf t >>> 10) % 256,
    (nanoOf t >>> 2) % 256, ((nanoOf t <<< 6) % 256) ||| (counter % 256),
    (process >>> 8) % 256, process % 256 ]

/-- The `for` loop of `Process.NewID`: from the state `(t, counter)` and the
supplied internal timestamp `ts`, either adopt `ts` (resetting the counter),
keep the state (when the counter has not overflowed), or re-read the wall
clock.  The successive wall-clock readings (`time.Now()`, in Unix
nanoseconds) are supplied as the list `nows`; `none` models the busy-wait
not terminating within the supplied readings. -/
def loopResolve (t : Int) (counter : Nat) : Int → List Int → Option (Int × Nat)
  | ts, nows =>
    if t < ts then some (ts, 0)
    else if maxCounter < counter then
      match nows with
      | [] => none
      | n :: rest => loopResolve t counter (internalTime n) rest
    else some (t, counter)

/-- `Process.NewID` from `buid.go`: returns the updated generator state and
the generated ID.  `timestamp` and the entries of `nows` are Unix
nanosecond instants. -/
def Process.NewID (p : Process) (shard : Nat) (timestamp : Int) (nows : List Int) :
    Option (Process × ID) :=
  match loopResolve p.t p.counter (internalTime timestamp) nows with
  | none => none
  | some (t, c) =>
      some ({ id := p.id, t := t, counter := (c + 1) % 256 }, packID shard t c p.id)

/-- One call of a generation sequence: shard index, supplied timestamp
(Unix ns) and wall-clock readings for the busy-wait path. -/
structure Call where
  shard : Nat
  ts : Int
  nows : List Int
deriving Repr

/-- Run a sequence of `NewID` calls against one generator, collecting the
returned IDs; stops if a call's busy-wait does not resolve. -/
def runCalls (p : Process) : List Call → Process × List ID
  | [] => (p, [])
  | c :: rest =>
    match p.NewID c.shard c.ts c.nows with
    | none => (p, [])
    | some (p', id) =>
        let r := runCalls p' rest
        (r.1, id :: r.2)

/-- Like `runCalls` but collecting the captured `(shard, t, counter)`
triples of each emission instead of the packed bytes. -/
def runEmits (p : Process) : List Call → Process × List (Nat × Int × Nat)
  | [] => (p, [])
  | c :: rest =>
    match loopResolve p.t p.counter (internalTime c.ts) c.nows with
    | none => (p, [])
    | some (t, cnt) =>
        let r := runEmits { id := p.id, t := t, counter := (cnt + 1) % 256 } rest
        (r.1, (c.shard, t, cnt) :: r.2)

/-- `ID.Time` from `buid.go`, as a Unix nanosecond instant
(`externalTime` of the embedded internal time). -/
def ID.Time (id : ID) : Int :=
  let g := fun i => id.getD i 0
  let hour := ((g 4) <<< 24) ||| ((g 5) <<< 16) ||| ((g 6) <<< 8) ||| g 7
  let minute := (g 8 &&& 0xfc) >>> 2
  let second := ((g 8 &&& 0x03) <<< 4) ||| (g 9 >>> 4)
  let nano := ((g 9 &&& 0x0f) <<< 26) ||| ((g 10) <<< 18) ||| ((g 11) <<< 10) |||
    ((g 12) <<< 2) ||| ((g 13) >>> 6)
  externalTime ((hour : Int) * hourInNano + (minute : Int) * minuteInNano +
    (second : Int) * secondInNano + (nano : Int))

/-- `ID.Shard` accessor from `buid.go` (the embedded shard index). -/
def ID.ShardIdx (id : ID) : Nat := ((id.getD 0 0) <<< 8) ||| id.getD 1 0

/-- `ID.Process` accessor from `buid.go`. -/
def ID.ProcessId (id : ID) : Nat := ((id.getD 14 0) <<< 8) ||| id.getD 15 0

/-- `ID.Counter` accessor from `buid.go`. -/
def ID.Counter (id : ID) : Nat := (id.getD 13 0) &&& 0x3f

/-- `ID.Split` from `buid.go`. -/
def ID.Split (id : ID) : Shard × Key := (id.take 8, id.drop 8)

/-- `join` from `buid.go`. -/
def join (s : Shard) (k : Key) : ID := s ++ k

/-- The all-zero 8-byte array (`Shard{}` / `Key{}` in Go). -/
def zero8 : List Nat := List.replicate 8 0

/-- `Shard.Index` from `buid.go`. -/
def Shard.Index (s : Shard) : Nat := ID.ShardIdx (join s zero8)

/-- `Shard.Time` from `buid.go` (Unix nanoseconds). -/
def Shard.Time (s : Shard) : Int := ID.Time (join s zero8)

/-- Go `time.Time.Truncate(time.Hour)` on a Unix-nanosecond instant at or
after the Unix epoch: rounding down to a whole hour.  (The Go zero time
is a whole number of hours away from the Unix epoch, so truncation can be
computed on Unix nanoseconds.) -/
def truncHour (x : Int) : Int := x - x % hourInNano

/-- `Key.Time` from `buid.go`: `t.Sub(t.Truncate(time.Hour))` for
`t = join(Shard{}, k).Time()`; a `time.Duration` in nanoseconds. -/
def Key.Time (k : Key) : Int :=
  let t := ID.Time (join zero8 k)
  t - truncHour t

/-- `Key.Process` from `buid.go`. -/
def Key.Process (k : Key) : Nat := ID.ProcessId (join zero8 k)

/-- `Key.Counter` from `buid.go`. -/
def Key.Counter (k : Key) : Nat := ID.Counter (join zero8 k)

/-! ## Bit-manipulation helpers -/

/-- Bitwise or of values with disjoint bit ranges is addition. -/
theorem orAdd (k a b : Nat) (hb : b < 2 ^ k) : (a * 2 ^ k) ||| b = a * 2 ^ k + b := by
  rw [Nat.mul_comm a (2 ^ k)]
  exact (Nat.mul_add_lt_is_or hb a).symm

theorem orAdd26 (a b : Nat) (hb : b < 67108864) : a * 67108864 ||| b = a * 67108864 + b := by
  have h : (67108864 : Nat) = 2 ^ 26 := by norm_num
  rw [h]; exact orAdd 26 a b (by omega)

theorem orAdd24 (a b : Nat) (hb : b < 16777216) : a * 16777216 ||| b = a * 16777216 + b := by
  have h : (16777216 : Nat) = 2 ^ 24 := by norm_num
  rw [h]; exact orAdd 24 a b (by omega)

theorem orAdd18 (a b : Nat) (hb : b < 262144) : a * 262144 ||| b = a * 262144 + b := by
  have h : (262144 : Nat) = 2 ^ 18 := by norm_num
  rw [h]; exact orAdd 18 a b (by omega)

theorem orAdd16 (a b : Nat) (hb : b < 65536) : a * 65536 ||| b = a * 65536 + b := by
  have h : (65536 : Nat) = 2 ^ 16 := by norm_num
  rw [h]; exact orAdd 16 a b (by omega)

theorem orAdd10 (a b : Nat) (hb : b < 1024) : a * 1024 ||| b = a * 1024 + b := by
  have h : (1024 : Nat) = 2 ^ 10 := by norm_num
  rw [h]; exact orAdd 10 a b (by omega)

theorem orAdd8 (a b : Nat) (hb : b < 256) : a * 256 ||| b = a * 256 + b := by
  have h : (256 : Nat) = 2 ^ 8 := by norm_num
  rw [h]; exact orAdd 8 a b (by omega)

theorem orAdd4 (a b : Nat) (hb : b < 16) : a * 16 ||| b = a * 16 + b := by
  have h : (16 : Nat) = 2 ^ 4 := by norm_num
  rw [h]; exact orAdd 4 a b (by omega)

theorem orAdd2 (a b : Nat) (hb : b < 4) : a * 4 ||| b = a * 4 + b := by
  have h : (4 : Nat) = 2 ^ 2 := by norm_num
  rw [h]; exact orAdd 2 a b (by omega)

theorem and63_lt : ∀ m, m < 60 → m &&& 63 = m := by decide
theorem and48_div16 : ∀ s, s < 60 → (s &&& 48) / 16 = s / 16 := by decide
theorem and15_lt : ∀ s, s < 60 → s &&& 15 = s % 16 := by decide
theorem or4_lt : ∀ m, m < 60 → ∀ q, q < 4 → m * 4 ||| q = 4 * m + q := by decide
theorem byte8_minute : ∀ m, m < 60 → ∀ q, q < 4 → ((4 * m + q) &&& 252) / 4 = m := by decide
theorem byte8_and3 : ∀ m, m < 60 → ∀ q, q < 4 → (4 * m + q) &&& 3 = q := by decide
theorem byte9_div16 : ∀ a, a < 16 → ∀ b, b < 16 → (16 * a + b) / 16 = a := by decide
theorem byte9_and15 : ∀ a, a < 16 → ∀ b, b < 16 → (16 * a + b) &&& 15 = b := by decide
theorem or64_lt : ∀ w, w < 4 → ∀ c, c < 64 → w * 64 ||| c = 64 * w + c := by decide
theorem byte13_div64 : ∀ w, w < 4 → ∀ c, c < 64 → (64 * w + c) / 64 = w := by decide

theorem hourOf_coe (T : Nat) : hourOf (T : Int) = T / 3600000000000 % 4294967296 := rfl
theorem minuteOf_coe (T : Nat) : minuteOf (T : Int) = T % 3600000000000 / 60000000000 % 256 := rfl
theorem secondOf_coe (T : Nat) : secondOf (T : Int) = T % 60000000000 / 1000000000 % 256 := rfl
theorem nanoOf_coe (T : Nat) : nanoOf (T : Int) = T % 1000000000 % 4294967296 := rfl

theorem Time_packID_nat (sh c pid T : Nat) (hT : T < 4294967296 * 3600000000000) (hc : c < 64) :
    ID.Time (packID sh (T : Int) c pid) = Epoch + (T : Int) := by
  have hhour : hourOf (T : Int) = T / 3600000000000 := by rw [hourOf_coe]; omega
  have hmin : minuteOf (T : Int) = T % 3600000000000 / 60000000000 := by rw [minuteOf_coe]; omega
  have hsec : secondOf (T : Int) = T % 60000000000 / 1000000000 := by rw [secondOf_coe]; omega
  have hnano : nanoOf (T : Int) = T % 1000000000 := by rw [nanoOf_coe]; omega
  unfold packID ID.Time externalTime
  rw [hhour, hmin, hsec, hnano]
  simp only [List.getD_cons_zero, List.getD_cons_succ]
  have p2 : (2 : Nat) ^ 2 = 4 := by norm_num
  have p4 : (2 : Nat) ^ 4 = 16 := by norm_num
  have p6 : (2 : Nat) ^ 6 = 64 := by norm_num
  have p8 : (2 : Nat) ^ 8 = 256 := by norm_num
  have p10 : (2 : Nat) ^ 10 = 1024 := by norm_num
  have p16pow : (2 : Nat) ^ 16 = 65536 := by norm_num
  have p18 : (2 : Nat) ^ 18 = 262144 := by norm_num
  have p24 : (2 : Nat) ^ 24 = 16777216 := by norm_num
  have p26 : (2 : Nat) ^ 26 = 67108864 := by norm_num
  simp only [Nat.shiftRight_eq_div_pow, Nat.shiftLeft_eq, p2, p4, p6, p8, p10, p16pow, p18, p24, p26]
  set h := T / 3600000000000 with hdefh
  set m := T % 3600000000000 / 60000000000 with hdefm
  set s := T % 60000000000 / 1000000000 with hdefs
  set n := T % 1000000000 with hdefn
  have hh : h < 4294967296 := by omega
  have hm : m < 60 := by omega
  have hs : s < 60 := by omega
  have hn : n < 1000000000 := by omega
  -- hour reassembly
  have e4 : h / 16777216 % 256 = h / 16777216 := by omega
  rw [e4]
  rw [orAdd24 (h / 16777216) (h / 65536 % 256 * 65536) (by omega)]
  have eh1 : h / 16777216 * 16777216 + h / 65536 % 256 * 65536 = (h / 65536) * 65536 := by omega
  rw [eh1, orAdd16 (h / 65536) (h / 256 % 256 * 256) (by omega)]
  have eh2 : h / 65536 * 65536 + h / 256 % 256 * 256 = (h / 256) * 256 := by omega
  rw [eh2, orAdd8 (h / 256) (h % 256) (by omega)]
  -- byte 8
  rw [and63_lt m hm, and48_div16 s hs, or4_lt m hm (s / 16) (by omega)]
  -- byte 9
  rw [and15_lt s hs]
  have e9 : n / 67108864 % 256 = n / 67108864 := by omega
  rw [e9]
  have e9b : s % 16 * 16 ||| n / 67108864 = 16 * (s % 16) + n / 67108864 := by
    have := or4_lt
    have h16 : s % 16 * 16 = (s % 16) * 16 := rfl
    rw [show s % 16 * 16 ||| n / 67108864 = (s % 16) * 16 ||| n / 67108864 from rfl]
    rw [orAdd4 (s % 16) (n / 67108864) (by omega)]
    omega
  rw [e9b]
  -- minute back out
  rw [byte8_minute m hm (s / 16) (by omega)]
  -- second back out
  rw [byte8_and3 m hm (s / 16) (by omega)]
  rw [byte9_div16 (s % 16) (by omega) (n / 67108864) (by omega)]
  have es : s / 16 * 16 ||| s % 16 = s := by
    rw [orAdd4 (s / 16) (s % 16) (by omega)]
    omega
  rw [es]
  -- byte 13
  have e13 : n * 64 % 256 = n % 4 * 64 := by omega
  have ec : c % 256 = c := by omega
  rw [e13, ec, or64_lt (n % 4) (by omega) c hc]
  -- nano reassembly
  rw [byte9_and15 (s % 16) (by omega) (n / 67108864) (by omega)]
  rw [byte13_div64 (n % 4) (by omega) c hc]
  rw [orAdd26 (n / 67108864) (n / 262144 % 256 * 262144) (by omega)]
  have en1 : n / 67108864 * 67108864 + n / 262144 % 256 * 262144 = (n / 262144) * 262144 := by omega
  rw [en1, orAdd18 (n / 262144) (n / 1024 % 256 * 1024) (by omega)]
  have en2 : n / 262144 * 262144 + n / 1024 % 256 * 1024 = (n / 1024) * 1024 := by omega
  rw [en2, orAdd10 (n / 1024) (n / 4 % 256 * 4) (by omega)]
  have en3 : n / 1024 * 1024 + n / 4 % 256 * 4 = (n / 4) * 4 := by omega
  rw [en3, orAdd2 (n / 4) (n % 4) (by omega)]
  -- final arithmetic
  unfold Epoch hourInNano minuteInNano secondInNano
  push_cast
  omega


theorem byte13_and63 : ∀ w, w < 4 → ∀ c, c < 64 → (64 * w + c) &&& 63 = c := by decide

theorem Counter_packID (sh : Nat) (t : Int) (c pid : Nat) (hc : c < 64) :
    ID.Counter (packID sh t c pid) = c := by
  unfold packID ID.Counter
  simp only [List.getD_cons_zero, List.getD_cons_succ]
  have p6 : (2 : Nat) ^ 6 = 64 := by norm_num
  simp only [Nat.shiftLeft_eq, p6]
  have e13 : nanoOf t * 64 % 256 = nanoOf t % 4 * 64 := by omega
  have ec : c % 256 = c := by omega
  rw [e13, ec, or64_lt (nanoOf t % 4) (by omega) c hc]
  exact byte13_and63 (nanoOf t % 4) (by omega) c hc

theorem ProcessId_packID (sh : Nat) (t : Int) (c pid : Nat) (hpid : pid < 65536) :
    ID.ProcessId (packID sh t c pid) = pid := by
  unfold packID ID.ProcessId
  simp only [List.getD_cons_zero, List.getD_cons_succ]
  have p8 : (2 : Nat) ^ 8 = 256 := by norm_num
  simp only [Nat.shiftRight_eq_div_pow, Nat.shiftLeft_eq, p8]
  have e : pid / 256 % 256 = pid / 256 := by omega
  rw [e, orAdd8 (pid / 256) (pid % 256) (by omega)]
  omega

theorem ShardIdx_packID (sh : Nat) (t : Int) (c pid : Nat) (hsh : sh < 65536) :
    ID.ShardIdx (packID sh t c pid) = sh := by
  unfold packID ID.ShardIdx
  simp only [List.getD_cons_zero, List.getD_cons_succ]
  have p8 : (2 : Nat) ^ 8 = 256 := by norm_num
  simp only [Nat.shiftRight_eq_div_pow, Nat.shiftLeft_eq, p8]
  have e : sh / 256 % 256 = sh / 256 := by omega
  rw [e, orAdd8 (sh / 256) (sh % 256) (by omega)]
  omega

theorem ShardIndex_packID (sh : Nat) (t : Int) (c pid : Nat) (hsh : sh < 65536) :
    Shard.Index (ID.Split (packID sh t c pid)).1 = sh := by
  unfold packID ID.Split Shard.Index join zero8 ID.ShardIdx
  simp only [List.take_succ_cons, List.take_zero, List.replicate, List.cons_append,
    List.nil_append, List.getD_cons_zero, List.getD_cons_succ]
  have p8 : (2 : Nat) ^ 8 = 256 := by norm_num
  simp only [Nat.shiftRight_eq_div_pow, Nat.shiftLeft_eq, p8]
  have e : sh / 256 % 256 = sh / 256 := by omega
  rw [e, orAdd8 (sh / 256) (sh % 256) (by omega)]
  omega

theorem ShardTime_packID (sh c pid T : Nat) (hT : T < 4294967296 * 3600000000000) :
    Shard.Time (ID.Split (packID sh (T : Int) c pid)).1 =
      Epoch + ((T / 3600000000000 : Nat) : Int) * hourInNano := by
  have hhour : hourOf (T : Int) = T / 3600000000000 := by rw [hourOf_coe]; omega
  unfold packID ID.Split Shard.Time join zero8 ID.Time externalTime
  rw [hhour]
  simp only [List.take_succ_cons, List.take_zero, List.replicate, List.cons_append,
    List.nil_append, List.getD_cons_zero, List.getD_cons_succ]
  have p8 : (2 : Nat) ^ 8 = 256 := by norm_num
  have p16pow : (2 : Nat) ^ 16 = 65536 := by norm_num
  have p24 : (2 : Nat) ^ 24 = 16777216 := by norm_num
  simp only [Nat.shiftRight_eq_div_pow, Nat.shiftLeft_eq, Nat.zero_and, Nat.and_zero,
    Nat.zero_or, Nat.or_zero, Nat.zero_shiftLeft, Nat.zero_mul, Nat.zero_div,
    Nat.zero_mod, p8, p16pow, p24]
  set h := T / 3600000000000 with hdefh
  have hh : h < 4294967296 := by omega
  have e4 : h / 16777216 % 256 = h / 16777216 := by omega
  rw [e4]
  rw [orAdd24 (h / 16777216) (h / 65536 % 256 * 65536) (by omega)]
  have eh1 : h / 16777216 * 16777216 + h / 65536 % 256 * 65536 = (h / 65536) * 65536 := by omega
  rw [eh1, orAdd16 (h / 65536) (h / 256 % 256 * 256) (by omega)]
  have eh2 : h / 65536 * 65536 + h / 256 % 256 * 256 = (h / 256) * 256 := by omega
  rw [eh2, orAdd8 (h / 256) (h % 256) (by omega)]
  unfold Epoch hourInNano minuteInNano secondInNano
  push_cast
  omega

theorem KeyTime_packID (sh c pid T : Nat) (hT : T < 4294967296 * 3600000000000) (hc : c < 64) :
    Key.Time (ID.Split (packID sh (T : Int) c pid)).2 = (T : Int) % hourInNano := by
  have hmin : minuteOf (T : Int) = T % 3600000000000 / 60000000000 := by rw [minuteOf_coe]; omega
  have hsec : secondOf (T : Int) = T % 60000000000 / 1000000000 := by rw [secondOf_coe]; omega
  have hnano : nanoOf (T : Int) = T % 1000000000 := by rw [nanoOf_coe]; omega
  unfold packID ID.Split Key.Time truncHour join zero8 ID.Time externalTime
  rw [hmin, hsec, hnano]
  simp only [List.drop_succ_cons, List.drop_zero, List.replicate, List.cons_append,
    List.nil_append, List.getD_cons_zero, List.getD_cons_succ]
  have p2 : (2 : Nat) ^ 2 = 4 := by norm_num
  have p4 : (2 : Nat) ^ 4 = 16 := by norm_num
  have p6 : (2 : Nat) ^ 6 = 64 := by norm_num
  have p10 : (2 : Nat) ^ 10 = 1024 := by norm_num
  have p18 : (2 : Nat) ^ 18 = 262144 := by norm_num
  have p26 : (2 : Nat) ^ 26 = 67108864 := by norm_num
  simp only [Nat.shiftRight_eq_div_pow, Nat.shiftLeft_eq, Nat.zero_and, Nat.and_zero,
    Nat.zero_or, Nat.or_zero, Nat.zero_shiftLeft, Nat.zero_mul, Nat.zero_div,
    Nat.zero_mod, p2, p4, p6, p10, p18, p26]
  set m := T % 3600000000000 / 60000000000 with hdefm
  set s := T % 60000000000 / 1000000000 with hdefs
  set n := T % 1000000000 with hdefn
  have hm : m < 60 := by omega
  have hs : s < 60 := by omega
  have hn : n < 1000000000 := by omega
  rw [and63_lt m hm, and48_div16 s hs, or4_lt m hm (s / 16) (by omega)]
  rw [and15_lt s hs]
  have e9 : n / 67108864 % 256 = n / 67108864 := by omega
  rw [e9]
  rw [orAdd4 (s % 16) (n / 67108864) (by omega)]
  have e9b : s % 16 * 16 + n / 67108864 = 16 * (s % 16) + n / 67108864 := by omega
  rw [e9b]
  rw [byte8_minute m hm (s / 16) (by omega)]
  rw [byte8_and3 m hm (s / 16) (by omega)]
  rw [byte9_div16 (s % 16) (by omega) (n / 67108864) (by omega)]
  have es : s / 16 * 16 ||| s % 16 = s := by
    rw [orAdd4 (s / 16) (s % 16) (by omega)]
    omega
  rw [es]
  have e13 : n * 64 % 256 = n % 4 * 64 := by omega
  have ec : c % 256 = c := by omega
  rw [e13, ec, or64_lt (n % 4) (by omega) c hc]
  rw [byte9_and15 (s % 16) (by omega) (n / 67108864) (by omega)]
  rw [byte13_div64 (n % 4) (by omega) c hc]
  rw [orAdd26 (n / 67108864) (n / 262144 % 256 * 262144) (by omega)]
  have en1 : n / 67108864 * 67108864 + n / 262144 % 256 * 262144 = (n / 262144) * 262144 := by omega
  rw [en1, orAdd18 (n / 262144) (n / 1024 % 256 * 1024) (by omega)]
  have en2 : n / 262144 * 262144 + n / 1024 % 256 * 1024 = (n / 1024) * 1024 := by omega
  rw [en2, orAdd10 (n / 1024) (n / 4 % 256 * 4) (by omega)]
  have en3 : n / 1024 * 1024 + n / 4 % 256 * 4 = (n / 4) * 4 := by omega
  rw [en3, orAdd2 (n / 4) (n % 4) (by omega)]
  unfold Epoch hourInNano minuteInNano secondInNano
  push_cast
  omega

theorem KeyProcess_packID (sh : Nat) (t : Int) (c pid : Nat) (hpid : pid < 65536) :
    Key.Process (ID.Split (packID sh t c pid)).2 = pid := by
  unfold packID ID.Split Key.Process join zero8 ID.ProcessId
  simp only [List.drop_succ_cons, List.drop_zero, List.replicate, List.cons_append,
    List.nil_append, List.getD_cons_zero, List.getD_cons_succ]
  have p8 : (2 : Nat) ^ 8 = 256 := by norm_num
  simp only [Nat.shiftRight_eq_div_pow, Nat.shiftLeft_eq, p8]
  have e : pid / 256 % 256 = pid / 256 := by omega
  rw [e, orAdd8 (pid / 256) (pid % 256) (by omega)]
  omega

theorem KeyCounter_packID (sh : Nat) (t : Int) (c pid : Nat) (hc : c < 64) :
    Key.Counter (ID.Split (packID sh t c pid)).2 = c := by
  unfold packID ID.Split Key.Counter join zero8 ID.Counter
  simp only [List.drop_succ_cons, List.drop_zero, List.replicate, List.cons_append,
    List.nil_append, List.getD_cons_zero, List.getD_cons_succ]
  have p6 : (2 : Nat) ^ 6 = 64 := by norm_num
  simp only [Nat.shiftLeft_eq, p6]
  have e13 : nanoOf t * 64 % 256 = nanoOf t % 4 * 64 := by omega
  have ec : c % 256 = c := by omega
  rw [e13, ec, or64_lt (nanoOf t % 4) (by omega) c hc]
  exact byte13_and63 (nanoOf t % 4) (by omega) c hc

theorem KeyTime_bounds (k : List Nat) :
    0 ≤ Key.Time k ∧ Key.Time k < hourInNano := by
  simp only [Key.Time, truncHour]
  have hpos : (0 : Int) < hourInNano := by unfold hourInNano minuteInNano secondInNano; norm_num
  constructor
  · have := Int.emod_nonneg (ID.Time (join zero8 k)) (by omega : hourInNano ≠ 0)
    omega
  · have := Int.emod_lt_of_pos (ID.Time (join zero8 k)) hpos
    omega

theorem KeyCounter_le (k : List Nat) : Key.Counter k ≤ 63 := by
  unfold Key.Counter ID.Counter
  exact Nat.and_le_right


/-! ## Behaviour of the generation loop and of call sequences -/

/-- Strict lexicographic order on emissions `(shard, t, counter)`:
earlier embedded time, or equal time and smaller counter. -/
def emLt (a b : Nat × Int × Nat) : Prop :=
  a.2.1 < b.2.1 ∨ (a.2.1 = b.2.1 ∧ a.2.2 < b.2.2)

instance (a b : Nat × Int × Nat) : Decidable (emLt a b) := by
  unfold emLt; infer_instance

theorem loopResolve_spec {t : Int} {c : Nat} :
    ∀ {ts : Int} {nows : List Int} {t' : Int} {c' : Nat},
      loopResolve t c ts nows = some (t', c') →
      (t < t' ∧ c' = 0) ∨ (t' = t ∧ c' = c ∧ c ≤ 63) := by
  intro ts nows
  induction nows generalizing ts with
  | nil =>
    intro t' c' h
    unfold loopResolve at h
    split at h
    next hlt =>
      simp only [Option.some.injEq, Prod.mk.injEq] at h
      obtain ⟨h1, h2⟩ := h
      exact Or.inl ⟨by omega, by omega⟩
    next hge =>
      split at h
      · simp at h
      next hc =>
        simp only [Option.some.injEq, Prod.mk.injEq] at h
        obtain ⟨h1, h2⟩ := h
        exact Or.inr ⟨h1.symm, h2.symm, by unfold maxCounter at hc; omega⟩
  | cons n rest ih =>
    intro t' c' h
    unfold loopResolve at h
    split at h
    next hlt =>
      simp only [Option.some.injEq, Prod.mk.injEq] at h
      obtain ⟨h1, h2⟩ := h
      exact Or.inl ⟨by omega, by omega⟩
    next hge =>
      split at h
      · exact ih h
      next hc =>
        simp only [Option.some.injEq, Prod.mk.injEq] at h
        obtain ⟨h1, h2⟩ := h
        exact Or.inr ⟨h1.symm, h2.symm, by unfold maxCounter at hc; omega⟩

theorem loopResolve_src {t : Int} {c : Nat} :
    ∀ {ts : Int} {nows : List Int} {t' : Int} {c' : Nat},
      loopResolve t c ts nows = some (t', c') →
      t' = ts ∨ t' = t ∨ ∃ n ∈ nows, t' = internalTime n := by
  intro ts nows
  induction nows generalizing ts with
  | nil =>
    intro t' c' h
    unfold loopResolve at h
    split at h
    · exact Or.inl (by simp_all)
    · split at h
      · simp at h
      · exact Or.inr (Or.inl (by simp_all))
  | cons n rest ih =>
    intro t' c' h
    unfold loopResolve at h
    split at h
    · exact Or.inl (by simp_all)
    · split at h
      · rcases ih h with h1 | h2 | ⟨n', hn', e⟩
        · exact Or.inr (Or.inr ⟨n, List.mem_cons_self n rest, h1⟩)
        · exact Or.inr (Or.inl h2)
        · exact Or.inr (Or.inr ⟨n', List.mem_cons_of_mem n hn', e⟩)
      · exact Or.inr (Or.inl (by simp_all))

/-- Every emission of a run relates to the starting state: its time is
later, or at the same time with a counter at least the current one; and
its captured counter never exceeds 63. -/
theorem runEmits_rel :
    ∀ (calls : List Call) (p : Process), ∀ e ∈ (runEmits p calls).2,
      (p.t < e.2.1 ∨ (p.t = e.2.1 ∧ p.counter ≤ e.2.2)) ∧ e.2.2 ≤ 63 := by
  intro calls
  induction calls with
  | nil => intro p e he; simp [runEmits] at he
  | cons call rest ih =>
    intro p e he
    unfold runEmits at he
    rcases hr : loopResolve p.t p.counter (internalTime call.ts) call.nows with _ | ⟨t, cnt⟩
    · rw [hr] at he; simp at he
    · rw [hr] at he
      simp only [List.mem_cons] at he
      have hspec := loopResolve_spec hr
      rcases he with rfl | he
      · dsimp only
        constructor
        · rcases hspec with ⟨hlt, hc⟩ | ⟨he1, he2, hc⟩
          · exact Or.inl hlt
          · exact Or.inr ⟨he1.symm, by omega⟩
        · rcases hspec with ⟨_, hc⟩ | ⟨_, he2, hc⟩ <;> omega
      · have hcnt : cnt ≤ 63 := by
          rcases hspec with ⟨_, hc⟩ | ⟨_, _, hc⟩ <;> omega
        have hmod : (cnt + 1) % 256 = cnt + 1 := by omega
        have := ih { id := p.id, t := t, counter := (cnt + 1) % 256 } e he
        rcases this with ⟨hrel, hle⟩
        refine ⟨?_, hle⟩
        simp only [hmod] at hrel
        rcases hspec with ⟨hlt, _⟩ | ⟨he1, he2, _⟩
        · -- p.t < t ≤ e.t
          rcases hrel with h1 | ⟨h1, h2⟩
          · exact Or.inl (by omega)
          · exact Or.inl (by omega)
        · rcases hrel with h1 | ⟨h1, h2⟩
          · exact Or.inl (by omega)
          · exact Or.inr ⟨by omega, by omega⟩

/-- Emissions of one run are strictly increasing in `(time, counter)`. -/
theorem runEmits_pairwise :
    ∀ (calls : List Call) (p : Process), (runEmits p calls).2.Pairwise emLt := by
  intro calls
  induction calls with
  | nil => intro p; simp [runEmits]
  | cons call rest ih =>
    intro p
    unfold runEmits
    rcases hr : loopResolve p.t p.counter (internalTime call.ts) call.nows with _ | ⟨t, cnt⟩
    · simp
    · simp only []
      refine List.Pairwise.cons ?_ (ih _)
      intro e he
      show t < e.2.1 ∨ (t = e.2.1 ∧ cnt < e.2.2)
      have hspec := loopResolve_spec hr
      have hcnt : cnt ≤ 63 := by
        rcases hspec with ⟨_, hc⟩ | ⟨_, _, hc⟩ <;> omega
      have hmod : (cnt + 1) % 256 = cnt + 1 := by omega
      have := runEmits_rel rest { id := p.id, t := t, counter := (cnt + 1) % 256 } e he
      rcases this with ⟨hrel, _⟩
      simp only [hmod] at hrel
      rcases hrel with h1 | ⟨h1, h2⟩
      · exact Or.inl h1
      · exact Or.inr ⟨by omega, by omega⟩

/-- Admissible call: shard index fits `uint16`, and the supplied timestamp
and wall-clock readings lie in `[Epoch, Epoch + 2^32 hours)`. -/
def CallOK (c : Call) : Prop :=
  c.shard < 65536 ∧ Epoch ≤ c.ts ∧ c.ts < Epoch + 4294967296 * hourInNano ∧
    ∀ n ∈ c.nows, Epoch ≤ n ∧ n < Epoch + 4294967296 * hourInNano

/-- Internal time in representable range `[0, 2^32 hours)`. -/
def TOK (t : Int) : Prop := 0 ≤ t ∧ t < 4294967296 * hourInNano

instance (c : Call) : Decidable (CallOK c) := by unfold CallOK; infer_instance

instance (t : Int) : Decidable (TOK t) := by unfold TOK; infer_instance

theorem runEmits_range :
    ∀ (calls : List Call) (p : Process), TOK p.t → (∀ c ∈ calls, CallOK c) →
      ∀ e ∈ (runEmits p calls).2, TOK e.2.1 ∧ e.1 < 65536 := by
  intro calls
  induction calls with
  | nil => intro p _ _ e he; simp [runEmits] at he
  | cons call rest ih =>
    intro p hp hcalls e he
    unfold runEmits at he
    rcases hr : loopResolve p.t p.counter (internalTime call.ts) call.nows with _ | ⟨t, cnt⟩
    · rw [hr] at he; simp at he
    · rw [hr] at he
      have hcall : CallOK call := hcalls call (List.mem_cons_self call rest)
      have ht : TOK t := by
        rcases loopResolve_src hr with h1 | h2 | ⟨n, hn, e'⟩
        · rcases hcall with ⟨_, h3, h4, _⟩
          unfold TOK internalTime at *
          subst h1; constructor <;> omega
        · rw [h2]; exact hp
        · rcases hcall with ⟨_, _, _, h5⟩
          have := h5 n hn
          unfold TOK internalTime at *
          subst e'; constructor <;> omega
      simp only [List.mem_cons] at he
      rcases he with rfl | he
      · exact ⟨ht, hcall.1⟩
      · exact ih { id := p.id, t := t, counter := (cnt + 1) % 256 } ht
          (fun c hc => hcalls c (List.mem_cons_of_mem call hc)) e he

/-- The IDs returned by a run are the packings of its emissions. -/
theorem runCalls_eq :
    ∀ (calls : List Call) (p : Process),
      (runCalls p calls).2 = (runEmits p calls).2.map (fun e => packID e.1 e.2.1 e.2.2 p.id) := by
  intro calls
  induction calls with
  | nil => intro p; simp [runCalls, runEmits]
  | cons call rest ih =>
    intro p
    unfold runCalls runEmits Process.NewID
    rcases hr : loopResolve p.t p.counter (internalTime call.ts) call.nows with _ | ⟨t, cnt⟩
    · simp
    · simp only [List.map_cons, List.cons.injEq, true_and]
      exact ih { id := p.id, t := t, counter := (cnt + 1) % 256 }

/-! ## Helper equations for the constants and the loop -/

theorem secondInNano_eq : secondInNano = 1000000000 := by decide

theorem minuteInNano_eq : minuteInNano = 60000000000 := by decide

theorem hourInNano_eq : hourInNano = 3600000000000 := by decide

theorem loopResolve_adopt {t ts : Int} {c : Nat} (h : t < ts) (nows : List Int) :
    loopResolve t c ts nows = some (ts, 0) := by
  unfold loopResolve
  rw [if_pos h]

theorem loopResolve_stay {t ts : Int} {c : Nat} (h1 : ¬ t < ts) (h2 : c ≤ 63) (nows : List Int) :
    loopResolve t c ts nows = some (t, c) := by
  unfold loopResolve
  rw [if_neg h1, if_neg (by unfold maxCounter; omega)]

/-! ## Claim C1: uniqueness of generated identifiers -/

/-- C1 counterexample: the claim quantifies over *every* choice of supplied
timestamps.  With timestamps slightly before the `Epoch` (negative internal
times), Go's truncating division and unsigned wraps smear the fields, and
two calls with distinct timestamps return bit-identical identifiers. -/
theorem buid_C1_counterexample :
    ¬ ((runCalls { id := 5, t := -994967297, counter := 0 }
        [ { shard := 1, ts := Epoch - 994967296, nows := [] },
          { shard := 1, ts := Epoch + 3078774528, nows := [] } ]).2.Pairwise
        (fun a b => a ≠ b)) := by decide

/-- C1 (amended): for a generator state and supplied timestamps in
`[Epoch, Epoch + 2^32 hours)` — which in Go holds automatically whenever
the clock is at/after the 2017 epoch, since `int64` nanoseconds cannot
reach `2^32` hours — every sequence of `NewID` calls returns pairwise
distinct identifiers, for every choice of shard indices. -/
theorem buid_C1_uniqueness (p : Process) (calls : List Call)
    (hp : TOK p.t) (hcalls : ∀ c ∈ calls, CallOK c) :
    (runCalls p calls).2.Pairwise (fun a b => a ≠ b) := by
  rw [runCalls_eq, List.pairwise_map]
  have hpw := runEmits_pairwise calls p
  refine hpw.imp_of_mem ?_
  intro a b ha hb hab heq
  obtain ⟨⟨hta0, hta1⟩, _⟩ := runEmits_range calls p hp hcalls a ha
  obtain ⟨⟨htb0, htb1⟩, _⟩ := runEmits_range calls p hp hcalls b hb
  have hca := (runEmits_rel calls p a ha).2
  have hcb := (runEmits_rel calls p b hb).2
  have hTa := Int.toNat_of_nonneg hta0
  have hTb := Int.toNat_of_nonneg htb0
  rw [hourInNano_eq] at hta1 htb1
  have h1 := congrArg ID.Time heq
  rw [← hTa, ← hTb] at h1
  rw [Time_packID_nat _ _ _ _ (by omega) (by omega),
    Time_packID_nat _ _ _ _ (by omega) (by omega)] at h1
  have h2 := congrArg ID.Counter heq
  rw [Counter_packID _ _ _ _ (by omega), Counter_packID _ _ _ _ (by omega)] at h2
  unfold emLt at hab
  rcases hab with h | ⟨h, h'⟩ <;> omega

/-- Witness for C1 at a concrete generator and two concrete calls. -/
theorem buid_C1_uniqueness_witness :
    (runCalls { id := 1, t := 0, counter := 0 }
      [ { shard := 2, ts := Epoch, nows := [] },
        { shard := 2, ts := Epoch + 1, nows := [] } ]).2.Pairwise
      (fun a b => a ≠ b) :=
  buid_C1_uniqueness _ _ (by decide) (by decide)

/-! ## Claim C2: clock non-regression -/

/-- A `NewID` call whose timestamp does not exceed the claimed time, with
counter not overflowed: keeps the time, captures and increments the
counter. -/
theorem NewID_stay {p : Process} {sh : Nat} {ts : Int} {nows : List Int}
    (h1 : ¬ p.t < internalTime ts) (h2 : p.counter ≤ 63) :
    p.NewID sh ts nows =
      some ({ id := p.id, t := p.t, counter := p.counter + 1 },
        packID sh p.t p.counter p.id) := by
  unfold Process.NewID
  rw [loopResolve_stay h1 h2]
  dsimp only
  rw [show (p.counter + 1) % 256 = p.counter + 1 from by omega]

/-- A `NewID` call with a strictly later timestamp adopts it and resets
the counter. -/
theorem NewID_adopt {p : Process} {sh : Nat} {ts : Int} {nows : List Int}
    (h : p.t < internalTime ts) :
    p.NewID sh ts nows =
      some ({ id := p.id, t := internalTime ts, counter := 1 },
        packID sh (internalTime ts) 0 p.id) := by
  unfold Process.NewID
  rw [loopResolve_adopt h]

/-- Unfolding one successful call of `runCalls`. -/
theorem runCalls_cons_some {p p' : Process} {c : Call} {id : ID}
    (h : p.NewID c.shard c.ts c.nows = some (p', id)) (rest : List Call) :
    runCalls p (c :: rest) = ((runCalls p' rest).1, id :: (runCalls p' rest).2) := by
  have e : runCalls p (c :: rest) =
      match p.NewID c.shard c.ts c.nows with
      | none => (p, [])
      | some (p', id) => ((runCalls p' rest).1, id :: (runCalls p' rest).2) := rfl
  rw [e, h]

/-- Running `k` calls with the timestamp equal to the claimed internal
time (counter not overflowing), followed by arbitrary further calls. -/
theorem runCalls_same_ts_cont :
    ∀ (k : Nat) (p : Process) (sh : Nat) (ts : Int) (rest : List Call),
      internalTime ts = p.t → p.counter + k ≤ 64 →
      runCalls p (List.replicate k { shard := sh, ts := ts, nows := [] } ++ rest) =
        ((runCalls { id := p.id, t := p.t, counter := p.counter + k } rest).1,
          (List.range k).map (fun i => packID sh p.t (p.counter + i) p.id) ++
            (runCalls { id := p.id, t := p.t, counter := p.counter + k } rest).2) := by
  intro k
  induction k with
  | zero =>
    intro p sh ts rest hts hk
    simp only [List.replicate, List.nil_append, List.range_zero, List.map_nil,
      Nat.add_zero]
  | succ k ih =>
    intro p sh ts rest hts hk
    rw [List.replicate_succ, List.cons_append,
      runCalls_cons_some (NewID_stay (by dsimp only; omega) (by omega)) _]
    rw [ih { id := p.id, t := p.t, counter := p.counter + 1 } sh ts rest hts (by dsimp only; omega)]
    dsimp only
    have hc : p.counter + 1 + k = p.counter + (k + 1) := by omega
    rw [hc]
    refine congrArg₂ Prod.mk rfl ?_
    rw [List.range_succ_eq_map, List.map_cons, List.map_map, List.cons_append,
      List.cons.injEq]
    refine ⟨by rw [Nat.add_zero], ?_⟩
    rw [List.append_cancel_right_eq]
    refine List.map_congr_left ?_
    intro i hi
    simp only [Function.comp]
    have : p.counter + 1 + i = p.counter + (i + 1) := by omega
    rw [this]

/-- Running exactly `k` calls with the timestamp equal to the claimed
internal time: the counter is captured and incremented each call. -/
theorem runCalls_same_ts :
    ∀ (k : Nat) (p : Process) (sh : Nat) (ts : Int), internalTime ts = p.t →
      p.counter + k ≤ 64 →
      runCalls p (List.replicate k { shard := sh, ts := ts, nows := [] }) =
        ({ id := p.id, t := p.t, counter := p.counter + k },
          (List.range k).map (fun i => packID sh p.t (p.counter + i) p.id)) := by
  intro k p sh ts hts hk
  have h := runCalls_same_ts_cont k p sh ts [] hts hk
  rw [List.append_nil] at h
  rw [h]
  simp [runCalls]

/-- C2 counterexample: when the counter has overflowed (64 issued at one
instant), a call with an *earlier* timestamp does reset the counter (to 0,
after the busy-wait advances the time), rather than incrementing it.  The
overflowed state is reached by 64 calls at the seeded instant. -/
theorem buid_C2_counterexample :
    (runCalls { id := 1, t := 0, counter := 0 }
        (List.replicate 64 { shard := 2, ts := Epoch, nows := [] })).1 =
      { id := 1, t := 0, counter := 64 } ∧
    Process.NewID { id := 1, t := 0, counter := 64 } 2 (Epoch - 1) [Epoch + 1] =
      some ({ id := 1, t := 1, counter := 1 }, packID 2 1 0 1) ∧
    internalTime (Epoch - 1) < (0 : Int) ∧
    ID.Counter (packID 2 1 0 1) = 0 := by
  refine ⟨?_, by decide, by decide, by decide⟩
  rw [runCalls_same_ts 64 { id := 1, t := 0, counter := 0 } 2 Epoch (by decide) (by decide)]

/-- C2 (amended): the internal time never decreases across `NewID` calls,
and embedded times of a call sequence are monotonically non-decreasing,
unconditionally; a call with an earlier timestamp keeps the claimed time
and increments (does not reset) the counter *provided the counter has not
overflowed* (at most 63) *and the timestamp is not so far in the past that
Go's `int64` internal-time subtraction underflows* (at least `Epoch - 2^63`,
about the year 1725 — for earlier defined timestamps the wrapped difference
is a huge positive `int64`, so Go adopts it and resets the counter). -/
theorem buid_C2_monotonic :
    (∀ (p : Process) (sh : Nat) (ts : Int) (nows : List Int) (p' : Process) (id : ID),
        Process.NewID p sh ts nows = some (p', id) → p.t ≤ p'.t)
  ∧ (∀ (p : Process) (sh : Nat) (ts : Int) (nows : List Int),
        -9223372036854775808 ≤ internalTime ts → internalTime ts < p.t →
        p.counter ≤ 63 → TOK p.t →
        Process.NewID p sh ts nows =
          some ({ id := p.id, t := p.t, counter := p.counter + 1 },
            packID sh p.t p.counter p.id) ∧
        ID.Time (packID sh p.t p.counter p.id) = externalTime p.t ∧
        ID.Counter (packID sh p.t p.counter p.id) = p.counter)
  ∧ (∀ (p : Process) (calls : List Call), TOK p.t → (∀ c ∈ calls, CallOK c) →
        ((runCalls p calls).2.map ID.Time).Pairwise (fun a b => a ≤ b)) := by
  refine ⟨?_, ?_, ?_⟩
  · intro p sh ts nows p' id h
    unfold Process.NewID at h
    rcases hr : loopResolve p.t p.counter (internalTime ts) nows with _ | ⟨t, cnt⟩
    · rw [hr] at h; simp at h
    · rw [hr] at h
      simp only [Option.some.injEq, Prod.mk.injEq] at h
      rcases loopResolve_spec hr with ⟨h1, _⟩ | ⟨h1, _, _⟩
      · obtain ⟨hp', _⟩ := h
        subst hp'
        simp
        omega
      · obtain ⟨hp', _⟩ := h
        subst hp'
        simp
        omega
  · intro p sh ts nows hlow hlt hc hTOK
    have hr := @loopResolve_stay p.t (internalTime ts) p.counter (by omega) hc nows
    have hmod : (p.counter + 1) % 256 = p.counter + 1 := by omega
    refine ⟨?_, ?_, ?_⟩
    · unfold Process.NewID
      rw [hr]
      dsimp only
      rw [hmod]
    · obtain ⟨h0, h1⟩ := hTOK
      rw [hourInNano_eq] at h1
      have hT := Int.toNat_of_nonneg h0
      rw [← hT, Time_packID_nat _ _ _ _ (by omega) (by omega)]
      unfold externalTime
      rw [hT]
    · exact Counter_packID _ _ _ _ (by omega)
  · intro p calls hp hcalls
    rw [runCalls_eq, List.pairwise_map, List.pairwise_map]
    have hpw := runEmits_pairwise calls p
    refine hpw.imp_of_mem ?_
    intro a b ha hb hab
    obtain ⟨⟨hta0, hta1⟩, _⟩ := runEmits_range calls p hp hcalls a ha
    obtain ⟨⟨htb0, htb1⟩, _⟩ := runEmits_range calls p hp hcalls b hb
    have hca := (runEmits_rel calls p a ha).2
    have hcb := (runEmits_rel calls p b hb).2
    have hTa := Int.toNat_of_nonneg hta0
    have hTb := Int.toNat_of_nonneg htb0
    rw [hourInNano_eq] at hta1 htb1
    rw [← hTa, ← hTb, Time_packID_nat _ _ _ _ (by omega) (by omega),
      Time_packID_nat _ _ _ _ (by omega) (by omega)]
    unfold emLt at hab
    rcases hab with h | ⟨h, h'⟩ <;> omega

/-- Witness for C2 at a concrete state: an earlier timestamp keeps the
claimed time and increments the counter. -/
theorem buid_C2_monotonic_witness :
    Process.NewID { id := 1, t := 5, counter := 3 } 2 (Epoch + 4) [] =
      some ({ id := 1, t := 5, counter := 4 }, packID 2 5 3 1) :=
  (buid_C2_monotonic.2.1 { id := 1, t := 5, counter := 3 } 2 (Epoch + 4) []
    (by decide) (by decide) (by decide) (by decide)).1

/-! ## Claim C4: time round-trip -/

/-- C4 counterexample: the claim's hypotheses (timestamp not earlier than
the current internal time, in range) are not sufficient — when the
timestamp *equals* the claimed time and the counter has overflowed, the
busy-wait advances the time and `id.Time()` is strictly later than `ts`. -/
theorem buid_C4_counterexample :
    (runCalls { id := 1, t := 0, counter := 0 }
        (List.replicate 64 { shard := 2, ts := Epoch, nows := [] })).1 =
      { id := 1, t := 0, counter := 64 } ∧
    internalTime Epoch = (0 : Int) ∧
    TOK (internalTime Epoch) ∧
    Process.NewID { id := 1, t := 0, counter := 64 } 2 Epoch [Epoch + 1] =
      some ({ id := 1, t := 1, counter := 1 }, packID 2 1 0 1) ∧
    ID.Time (packID 2 1 0 1) = Epoch + 1 ∧
    Epoch + 1 ≠ Epoch := by
  refine ⟨?_, by decide, by decide, by decide, by decide, by decide⟩
  rw [runCalls_same_ts 64 { id := 1, t := 0, counter := 0 } 2 Epoch (by decide) (by decide)]

/-- C4 (amended): if the supplied timestamp is not earlier than the current
internal time, is within field ranges, and — in case it is exactly equal to
the current internal time — the counter has not overflowed, then `NewID`
succeeds and the embedded time decodes back to the timestamp exactly. -/
theorem buid_C4_time_roundtrip (p : Process) (sh : Nat) (ts : Int) (nows : List Int)
    (hts : p.t ≤ internalTime ts)
    (hcase : p.t < internalTime ts ∨ p.counter ≤ 63)
    (hrange : TOK (internalTime ts)) :
    ∃ p' id, Process.NewID p sh ts nows = some (p', id) ∧ ID.Time id = ts := by
  obtain ⟨h0, h1⟩ := hrange
  rw [hourInNano_eq] at h1
  have hT := Int.toNat_of_nonneg h0
  by_cases hlt : p.t < internalTime ts
  · refine ⟨{ id := p.id, t := internalTime ts, counter := 1 },
      packID sh (internalTime ts) 0 p.id, ?_, ?_⟩
    · unfold Process.NewID
      rw [loopResolve_adopt hlt]
    · rw [← hT, Time_packID_nat _ _ _ _ (by omega) (by omega)]
      unfold internalTime at hT ⊢
      omega
  · have heq : p.t = internalTime ts := by omega
    have hc : p.counter ≤ 63 := by
      rcases hcase with h | h
      · omega
      · exact h
    have hmod : (p.counter + 1) % 256 = p.counter + 1 := by omega
    refine ⟨{ id := p.id, t := p.t, counter := p.counter + 1 },
      packID sh p.t p.counter p.id, ?_, ?_⟩
    · unfold Process.NewID
      rw [loopResolve_stay (by omega) hc]
      dsimp only
      rw [hmod]
    · rw [heq, ← hT, Time_packID_nat _ _ _ _ (by omega) (by omega)]
      unfold internalTime at hT ⊢
      omega

/-- Witness for C4 at a concrete generator and timestamp. -/
theorem buid_C4_time_roundtrip_witness :
    ∃ p' id, Process.NewID { id := 1, t := 0, counter := 0 } 2 (Epoch + 5) [] =
      some (p', id) ∧ ID.Time id = Epoch + 5 :=
  buid_C4_time_roundtrip { id := 1, t := 0, counter := 0 } 2 (Epoch + 5) []
    (by decide) (by decide) (by decide)

/-! ## Claim C8: shard-half field extraction -/

/-- C8: for an identifier generated with shard index `s` at an adopted
timestamp `ts`, the Shard half reports `Index() = s` and `Shard.Time()` is
`ts` truncated down to the whole hour. -/
theorem buid_C8_shard_fields (p : Process) (sh : Nat) (ts : Int) (nows : List Int)
    (hadopt : p.t < internalTime ts) (hrange : TOK (internalTime ts)) (hsh : sh < 65536) :
    ∃ p' id, Process.NewID p sh ts nows = some (p', id) ∧
      Shard.Index (ID.Split id).1 = sh ∧
      Shard.Time (ID.Split id).1 = truncHour ts := by
  obtain ⟨h0, h1⟩ := hrange
  rw [hourInNano_eq] at h1
  have hT := Int.toNat_of_nonneg h0
  refine ⟨{ id := p.id, t := internalTime ts, counter := 1 },
    packID sh (internalTime ts) 0 p.id, ?_, ?_, ?_⟩
  · unfold Process.NewID
    rw [loopResolve_adopt hadopt]
  · exact ShardIndex_packID sh _ 0 p.id hsh
  · rw [← hT, ShardTime_packID sh 0 p.id _ (by omega)]
    unfold truncHour internalTime Epoch at *
    rw [hourInNano_eq]
    omega

/-- Witness for C8 at a concrete generator, shard 42 and timestamp. -/
theorem buid_C8_shard_fields_witness :
    ∃ p' id, Process.NewID { id := 1, t := 0, counter := 0 } 42 (Epoch + 5) [] =
      some (p', id) ∧
      Shard.Index (ID.Split id).1 = 42 ∧
      Shard.Time (ID.Split id).1 = truncHour (Epoch + 5) :=
  buid_C8_shard_fields { id := 1, t := 0, counter := 0 } 42 (Epoch + 5) []
    (by decide) (by decide) (by decide)

/-! ## Claim C9: key-half field extraction -/

/-- The Key half is independent of the shard index and of the hour: two
packings at times equal modulo one hour, with the same counter and process,
have identical Key halves. -/
theorem key_forgets_hour_shard (sh₁ sh₂ : Nat) (t₁ t₂ : Int) (c pid : Nat)
    (h₁ : 0 ≤ t₁) (h₂ : 0 ≤ t₂) (hmod : t₁ % hourInNano = t₂ % hourInNano) :
    (ID.Split (packID sh₁ t₁ c pid)).2 = (ID.Split (packID sh₂ t₂ c pid)).2 := by
  obtain ⟨T₁, rfl⟩ : ∃ T : Nat, t₁ = (T : Int) := ⟨t₁.toNat, (Int.toNat_of_nonneg h₁).symm⟩
  obtain ⟨T₂, rfl⟩ : ∃ T : Nat, t₂ = (T : Int) := ⟨t₂.toNat, (Int.toNat_of_nonneg h₂).symm⟩
  rw [hourInNano_eq] at hmod
  have h1 : T₁ % 3600000000000 = T₂ % 3600000000000 := by omega
  have h2 : T₁ % 60000000000 = T₂ % 60000000000 := by omega
  have h3 : T₁ % 1000000000 = T₂ % 1000000000 := by omega
  unfold packID ID.Split
  simp only [List.drop_succ_cons, List.drop_zero]
  rw [minuteOf_coe, minuteOf_coe, secondOf_coe, secondOf_coe, nanoOf_coe, nanoOf_coe,
    h1, h2, h3]

/-- C9: for every identifier a generator returns (whether the timestamp
was adopted, the state was kept with the counter incremented, or the
busy-wait path ran), the Key half alone reconstructs the process id, the
embedded counter and the time within the hour; and the Key half carries no
information about the hour or the shard index. -/
theorem buid_C9_key_fields (p : Process) (sh : Nat) (ts : Int) (nows : List Int)
    (p' : Process) (id : ID)
    (hgen : p.NewID sh ts nows = some (p', id))
    (hp : TOK p.t)
    (hts : Epoch ≤ ts ∧ ts < Epoch + 4294967296 * hourInNano)
    (hnows : ∀ n ∈ nows, Epoch ≤ n ∧ n < Epoch + 4294967296 * hourInNano)
    (hpid : p.id < 65536) :
    (Key.Process (ID.Split id).2 = p.id ∧
      Key.Counter (ID.Split id).2 = ID.Counter id ∧
      Key.Time (ID.Split id).2 = ID.Time id - truncHour (ID.Time id))
  ∧ (∀ (sh₁ sh₂ : Nat) (t₁ t₂ : Int) (c q : Nat), 0 ≤ t₁ → 0 ≤ t₂ →
      t₁ % hourInNano = t₂ % hourInNano →
      (ID.Split (packID sh₁ t₁ c q)).2 = (ID.Split (packID sh₂ t₂ c q)).2) := by
  refine ⟨?_,
    fun sh₁ sh₂ t₁ t₂ c q ha hb hm => key_forgets_hour_shard sh₁ sh₂ t₁ t₂ c q ha hb hm⟩
  unfold Process.NewID at hgen
  rcases hr : loopResolve p.t p.counter (internalTime ts) nows with _ | ⟨t, c⟩
  · rw [hr] at hgen; simp at hgen
  · rw [hr] at hgen
    simp only [Option.some.injEq, Prod.mk.injEq] at hgen
    obtain ⟨hp'eq, hid⟩ := hgen
    subst hid
    have hc : c ≤ 63 := by
      rcases loopResolve_spec hr with ⟨_, h⟩ | ⟨_, h, h2⟩ <;> omega
    have hTOKt : TOK t := by
      rcases loopResolve_src hr with h1 | h2 | ⟨n, hn, e⟩
      · obtain ⟨ha, hb⟩ := hts
        unfold TOK internalTime at *
        subst h1
        constructor <;> omega
      · rw [h2]; exact hp
      · obtain ⟨ha, hb⟩ := hnows n hn
        unfold TOK internalTime at *
        subst e
        constructor <;> omega
    obtain ⟨h0, h1⟩ := hTOKt
    rw [hourInNano_eq] at h1
    have hT := Int.toNat_of_nonneg h0
    refine ⟨?_, ?_, ?_⟩
    · exact KeyProcess_packID sh _ c p.id hpid
    · rw [KeyCounter_packID sh _ c p.id (by omega), Counter_packID sh _ c p.id (by omega)]
    · rw [← hT, KeyTime_packID sh c p.id _ (by omega) (by omega),
        Time_packID_nat _ _ _ _ (by omega) (by omega)]
      unfold truncHour Epoch
      rw [hourInNano_eq]
      omega

/-- Witness for C9 at a concrete stay-path call: the generator keeps its
claimed time and the identifier embeds counter 3, reconstructed from the
Key half. -/
theorem buid_C9_key_fields_witness :
    (Key.Process (ID.Split (packID 42 5 3 12)).2 = 12 ∧
      Key.Counter (ID.Split (packID 42 5 3 12)).2 = ID.Counter (packID 42 5 3 12) ∧
      Key.Time (ID.Split (packID 42 5 3 12)).2 =
        ID.Time (packID 42 5 3 12) - truncHour (ID.Time (packID 42 5 3 12)))
  ∧ (∀ (sh₁ sh₂ : Nat) (t₁ t₂ : Int) (c q : Nat), 0 ≤ t₁ → 0 ≤ t₂ →
      t₁ % hourInNano = t₂ % hourInNano →
      (ID.Split (packID sh₁ t₁ c q)).2 = (ID.Split (packID sh₂ t₂ c q)).2) :=
  buid_C9_key_fields { id := 12, t := 5, counter := 3 } 42 (Epoch + 5) []
    { id := 12, t := 5, counter := 4 } (packID 42 5 3 12)
    (by decide) (by decide) (by decide) (by decide) (by decide)

/-! ## Claim C10: key accessors are total and in range -/

/-- C10: for every 8-byte Key value, even with out-of-range embedded
fields, `Key.Time` is a duration within `[0, 1 hour)` and `Key.Counter`
is at most 63. -/
theorem buid_C10_key_bounds (k : Key) (hk : IsBytes 8 k) :
    0 ≤ Key.Time k ∧ Key.Time k < hourInNano ∧ Key.Counter k ≤ 63 :=
  ⟨(KeyTime_bounds k).1, (KeyTime_bounds k).2, KeyCounter_le k⟩

/-- Witness for C10 at the all-ones key (minute/second fields 63,
nanosecond field out of range). -/
theorem buid_C10_key_bounds_witness :
    0 ≤ Key.Time [255, 255, 255, 255, 255, 255, 255, 255] ∧
    Key.Time [255, 255, 255, 255, 255, 255, 255, 255] < hourInNano ∧
    Key.Counter [255, 255, 255, 255, 255, 255, 255, 255] ≤ 63 :=
  buid_C10_key_bounds [255, 255, 255, 255, 255, 255, 255, 255] (by decide)

/-! ## Claim C3: counter increments, overflow rollover, 64 per nanosecond -/


/-- The overflow path of the loop: counter exhausted at the current
instant, one wall-clock reading later than the claimed time. -/
theorem loopResolve_overflow {t t₁ : Int} (hlt : t < t₁) (n : Int)
    (hn : internalTime n = t₁) :
    loopResolve t 64 t [n] = some (t₁, 0) := by
  unfold loopResolve
  rw [if_neg (by omega), if_pos (by unfold maxCounter; omega)]
  dsimp only
  rw [hn]
  exact loopResolve_adopt hlt []

/-- A `Pairwise (<)` list of naturals all below `n` has at most `n`
elements. -/
theorem length_le_of_pairwise_lt (l : List Nat) (n : Nat) (h : l.Pairwise (· < ·))
    (hb : ∀ x ∈ l, x < n) : l.length ≤ n := by
  have hnd : l.Nodup := h.imp Nat.ne_of_lt
  have hsub : l.toFinset ⊆ Finset.range n := by
    intro x hx
    simp only [Finset.mem_range]
    exact hb x (List.mem_toFinset.mp hx)
  have hc := Finset.card_le_card hsub
  rw [List.toFinset_card_of_nodup hnd] at hc
  simpa using hc

/-- In any run, at most 64 emissions carry the same embedded time. -/
theorem emits_per_time_le (q : Process) (cs : List Call) (τ : Int) :
    ((runEmits q cs).2.filter (fun e => decide (e.2.1 = τ))).length ≤ 64 := by
  have hpw : ((runEmits q cs).2.filter (fun e => decide (e.2.1 = τ))).Pairwise emLt :=
    (runEmits_pairwise cs q).filter _
  have key : (((runEmits q cs).2.filter (fun e => decide (e.2.1 = τ))).map
      (fun e => e.2.2)).Pairwise (· < ·) := by
    rw [List.pairwise_map]
    refine hpw.imp_of_mem ?_
    intro a b ha hb hab
    have ha' := List.of_mem_filter ha
    have hb' := List.of_mem_filter hb
    simp only [decide_eq_true_eq] at ha' hb'
    unfold emLt at hab
    rcases hab with h | ⟨_, h⟩
    · exact absurd (ha'.trans hb'.symm) (by omega)
    · exact h
  have hbnd : ∀ x ∈ (((runEmits q cs).2.filter (fun e => decide (e.2.1 = τ))).map
      (fun e => e.2.2)), x < 64 := by
    intro x hx
    obtain ⟨e, he, rfl⟩ := List.mem_map.mp hx
    have := (runEmits_rel cs q e (List.mem_of_mem_filter he)).2
    omega
  have := length_le_of_pairwise_lt _ 64 key hbnd
  rw [List.length_map] at this
  exact this

/-- C3: calling `NewID` 64 times with the timestamp equal to the claimed
internal time yields embedded counters 0, 1, ..., 63 with the same embedded
time; the 65th call busy-waits, returns a strictly later embedded time with
counter 0; and in any run at most 64 emissions share one embedded
nanosecond. -/
theorem buid_C3_counter_cycle (pid sh : Nat) (t₀ t₁ : Int)
    (h₀ : TOK t₀) (h₁ : TOK t₁) (hlt : t₀ < t₁) :
    (runCalls { id := pid, t := t₀, counter := 0 }
        (List.replicate 64 { shard := sh, ts := externalTime t₀, nows := [] } ++
          [{ shard := sh, ts := externalTime t₀, nows := [externalTime t₁] }])).2 =
      (List.range 64).map (fun i => packID sh t₀ i pid) ++ [packID sh t₁ 0 pid]
  ∧ (∀ i, i < 64 → ID.Counter (packID sh t₀ i pid) = i ∧
      ID.Time (packID sh t₀ i pid) = externalTime t₀)
  ∧ ID.Counter (packID sh t₁ 0 pid) = 0
  ∧ ID.Time (packID sh t₁ 0 pid) = externalTime t₁
  ∧ externalTime t₀ < externalTime t₁
  ∧ (∀ (q : Process) (cs : List Call) (τ : Int),
      ((runEmits q cs).2.filter (fun e => decide (e.2.1 = τ))).length ≤ 64) := by
  have he₀ : internalTime (externalTime t₀) = t₀ := by
    unfold internalTime externalTime; omega
  have he₁ : internalTime (externalTime t₁) = t₁ := by
    unfold internalTime externalTime; omega
  obtain ⟨h00, h01⟩ := h₀
  obtain ⟨h10, h11⟩ := h₁
  rw [hourInNano_eq] at h01 h11
  have hT₀ := Int.toNat_of_nonneg h00
  have hT₁ := Int.toNat_of_nonneg h10
  refine ⟨?_, ?_, ?_, ?_, ?_, ?_⟩
  · have hone : Process.NewID { id := pid, t := t₀, counter := 64 } sh
        (externalTime t₀) [externalTime t₁] =
        some ({ id := pid, t := t₁, counter := 1 }, packID sh t₁ 0 pid) := by
      unfold Process.NewID
      dsimp only
      rw [he₀, loopResolve_overflow hlt _ he₁]
    rw [runCalls_same_ts_cont 64 { id := pid, t := t₀, counter := 0 } sh
      (externalTime t₀) _ he₀ (by dsimp only; omega)]
    dsimp only
    rw [runCalls_cons_some hone []]
    simp only [runCalls, Nat.zero_add]
  · intro i hi
    refine ⟨Counter_packID sh t₀ i pid hi, ?_⟩
    rw [← hT₀, Time_packID_nat _ _ _ _ (by omega) (by omega)]
    unfold externalTime
    omega
  · exact Counter_packID sh t₁ 0 pid (by omega)
  · rw [← hT₁, Time_packID_nat _ _ _ _ (by omega) (by omega)]
    unfold externalTime
    omega
  · unfold externalTime
    omega
  · exact emits_per_time_le

/-- Witness for C3 at a concrete generator seeded at the Epoch. -/
theorem buid_C3_counter_cycle_witness :
    (runCalls { id := 1, t := 0, counter := 0 }
        (List.replicate 64 { shard := 2, ts := externalTime 0, nows := [] } ++
          [{ shard := 2, ts := externalTime 0, nows := [externalTime 1] }])).2 =
      (List.range 64).map (fun i => packID 2 0 i 1) ++ [packID 2 1 0 1]
  ∧ (∀ i, i < 64 → ID.Counter (packID 2 0 i 1) = i ∧
      ID.Time (packID 2 0 i 1) = externalTime 0)
  ∧ ID.Counter (packID 2 1 0 1) = 0
  ∧ ID.Time (packID 2 1 0 1) = externalTime 1
  ∧ externalTime 0 < externalTime 1
  ∧ (∀ (q : Process) (cs : List Call) (τ : Int),
      ((runEmits q cs).2.filter (fun e => decide (e.2.1 = τ))).length ≤ 64) :=
  buid_C3_counter_cycle 1 2 0 1 (by decide) (by decide) (by decide)

/-! ## Byte-wise comparison and big-endian values (for claim C5) -/

/-- Lexicographic byte-wise comparison, as performed by `bytes.Compare` or
by a byte-ordered key-value store on the stored keys. -/
def byteCompare : List Nat → List Nat → Ordering
  | [], [] => .eq
  | [], _ :: _ => .lt
  | _ :: _, [] => .gt
  | a :: as, b :: bs =>
    if a < b then .lt else if b < a then .gt else byteCompare as bs

/-- The value of a big-endian digit string in base `b`. -/
def valB (b : Nat) : List Nat → Nat
  | [] => 0
  | d :: l => d * b ^ l.length + valB b l

theorem valB_lt (b : Nat) (hb : 0 < b) :
    ∀ l : List Nat, (∀ d ∈ l, d < b) → valB b l < b ^ l.length := by
  intro l
  induction l with
  | nil => intro _; simp [valB]
  | cons d l ih =>
    intro hd
    have h1 : d < b := hd d (List.mem_cons_self d l)
    have h2 : valB b l < b ^ l.length := ih (fun x hx => hd x (List.mem_cons_of_mem d hx))
    unfold valB
    have h3 : (d + 1) * b ^ l.length ≤ b * b ^ l.length :=
      Nat.mul_le_mul_right _ (by omega)
    rw [List.length_cons, pow_succ, Nat.add_mul, Nat.one_mul] at *
    rw [Nat.mul_comm (b ^ l.length) b]
    omega

/-- On equal-length digit strings with in-range digits, byte-wise
comparison computes the comparison of the big-endian values. -/
theorem byteCompare_spec (b : Nat) :
    ∀ (l₁ l₂ : List Nat), l₁.length = l₂.length →
      (∀ d ∈ l₁, d < b) → (∀ d ∈ l₂, d < b) →
      byteCompare l₁ l₂ = compare (valB b l₁) (valB b l₂) := by
  intro l₁
  induction l₁ with
  | nil =>
    intro l₂ hlen _ _
    have : l₂ = [] := List.length_eq_zero.mp hlen.symm
    subst this
    simp only [byteCompare, valB]
    rw [Nat.compare_eq_eq.mpr rfl]
  | cons a as ih =>
    intro l₂ hlen h₁ h₂
    rcases l₂ with _ | ⟨c, cs⟩
    · simp at hlen
    · have hlen' : as.length = cs.length := by simpa using hlen
      have ha : a < b := h₁ a (List.mem_cons_self a as)
      have hc : c < b := h₂ c (List.mem_cons_self c cs)
      have hva : valB b as < b ^ as.length :=
        valB_lt b (by omega) as (fun x hx => h₁ x (List.mem_cons_of_mem a hx))
      have hvc : valB b cs < b ^ cs.length :=
        valB_lt b (by omega) cs (fun x hx => h₂ x (List.mem_cons_of_mem c hx))
      unfold byteCompare valB
      rw [List.length_cons, List.length_cons] at *
      rw [hlen'] at hva ⊢
      by_cases hac : a < c
      · rw [if_pos hac]
        have h3 : (a + 1) * b ^ cs.length ≤ c * b ^ cs.length :=
          Nat.mul_le_mul_right _ (by omega)
        rw [Nat.add_mul, Nat.one_mul] at h3
        exact (Nat.compare_eq_lt.mpr (by omega)).symm
      · by_cases hca : c < a
        · rw [if_neg hac, if_pos hca]
          have h3 : (c + 1) * b ^ cs.length ≤ a * b ^ cs.length :=
            Nat.mul_le_mul_right _ (by omega)
          rw [Nat.add_mul, Nat.one_mul] at h3
          exact (Nat.compare_eq_gt.mpr (by omega)).symm
        · have : a = c := by omega
          subst this
          rw [if_neg hac, if_neg hca]
          rw [ih cs hlen' (fun x hx => h₁ x (List.mem_cons_of_mem a hx))
            (fun x hx => h₂ x (List.mem_cons_of_mem a hx))]
          rcases Nat.lt_trichotomy (valB b as) (valB b cs) with h | h | h
          · rw [Nat.compare_eq_lt.mpr h, Nat.compare_eq_lt.mpr (by omega)]
          · rw [Nat.compare_eq_eq.mpr h, Nat.compare_eq_eq.mpr (by omega)]
          · rw [Nat.compare_eq_gt.mpr h, Nat.compare_eq_gt.mpr (by omega)]

/-- Normal form of the packed bytes for a nonnegative in-range internal
time: every byte as plain natural arithmetic in `T`. -/
theorem packID_eq (sh T c pid : Nat)
    (hT : T < 4294967296 * 3600000000000) (hc : c < 64) :
    packID sh (T : Int) c pid =
      [ sh / 256 % 256, sh % 256, 0, 0,
        T / 3600000000000 / 16777216, T / 3600000000000 / 65536 % 256,
        T / 3600000000000 / 256 % 256, T / 3600000000000 % 256,
        4 * (T % 3600000000000 / 60000000000) + T % 60000000000 / 1000000000 / 16,
        16 * (T % 60000000000 / 1000000000 % 16) + T % 1000000000 / 67108864,
        T % 1000000000 / 262144 % 256, T % 1000000000 / 1024 % 256,
        T % 1000000000 / 4 % 256, 64 * (T % 1000000000 % 4) + c,
        pid / 256 % 256, pid % 256 ] := by
  have hhour : hourOf (T : Int) = T / 3600000000000 := by rw [hourOf_coe]; omega
  have hmin : minuteOf (T : Int) = T % 3600000000000 / 60000000000 := by rw [minuteOf_coe]; omega
  have hsec : secondOf (T : Int) = T % 60000000000 / 1000000000 := by rw [secondOf_coe]; omega
  have hnano : nanoOf (T : Int) = T % 1000000000 := by rw [nanoOf_coe]; omega
  unfold packID
  rw [hhour, hmin, hsec, hnano]
  have p2 : (2 : Nat) ^ 2 = 4 := by norm_num
  have p4 : (2 : Nat) ^ 4 = 16 := by norm_num
  have p6 : (2 : Nat) ^ 6 = 64 := by norm_num
  have p8 : (2 : Nat) ^ 8 = 256 := by norm_num
  have p10 : (2 : Nat) ^ 10 = 1024 := by norm_num
  have p16pow : (2 : Nat) ^ 16 = 65536 := by norm_num
  have p18 : (2 : Nat) ^ 18 = 262144 := by norm_num
  have p24 : (2 : Nat) ^ 24 = 16777216 := by norm_num
  have p26 : (2 : Nat) ^ 26 = 67108864 := by norm_num
  simp only [Nat.shiftRight_eq_div_pow, Nat.shiftLeft_eq, p2, p4, p6, p8, p10,
    p16pow, p18, p24, p26]
  set h := T / 3600000000000 with hdefh
  set m := T % 3600000000000 / 60000000000 with hdefm
  set s := T % 60000000000 / 1000000000 with hdefs
  set n := T % 1000000000 with hdefn
  have hh : h < 4294967296 := by omega
  have hm : m < 60 := by omega
  have hs : s < 60 := by omega
  have hn : n < 1000000000 := by omega
  have e4 : h / 16777216 % 256 = h / 16777216 := by omega
  rw [e4]
  rw [and63_lt m hm, and48_div16 s hs, or4_lt m hm (s / 16) (by omega)]
  rw [and15_lt s hs]
  have e9 : n / 67108864 % 256 = n / 67108864 := by omega
  rw [e9]
  rw [orAdd4 (s % 16) (n / 67108864) (by omega)]
  have e9b : s % 16 * 16 + n / 67108864 = 16 * (s % 16) + n / 67108864 := by omega
  rw [e9b]
  have e13 : n * 64 % 256 = n % 4 * 64 := by omega
  have ec : c % 256 = c := by omega
  rw [e13, ec, or64_lt (n % 4) (by omega) c hc]

/-- Value of the two shard-index bytes. -/
theorem shard_bytes_val (S : Nat) :
    S / 256 % 256 * 1329227995784915872903807060280344576 +
      S % 256 * 5192296858534827628530496329220096 =
      S % 65536 * 5192296858534827628530496329220096 := by omega

/-- Value of the four hour bytes. -/
theorem hour_bytes_val (h : Nat) (hh : h < 4294967296) :
    h / 16777216 * 309485009821345068724781056 +
      h / 65536 % 256 * 1208925819614629174706176 +
      h / 256 % 256 * 4722366482869645213696 +
      h % 256 * 18446744073709551616 = h * 18446744073709551616 := by omega

/-- Value of the minute/second bytes 8 and 9. -/
theorem minsec_bytes_val (m s u : Nat) :
    (4 * m + s / 16) * 72057594037927936 +
      (16 * (s % 16) + u) * 281474976710656 =
      m * 288230376151711744 + s * 4503599627370496 + u * 281474976710656 := by omega

/-- Value of the nanosecond bytes. -/
theorem nano_bytes_val (n : Nat) :
    n / 67108864 * 281474976710656 + n / 262144 % 256 * 1099511627776 +
      n / 1024 % 256 * 4294967296 + n / 4 % 256 * 16777216 +
      n % 4 * 4194304 = n * 4194304 := by omega

/-- Value of byte 13 (nano low bits and counter). -/
theorem ctr_byte_val (w c : Nat) :
    (64 * w + c) * 65536 = w * 4194304 + c * 65536 := by omega

/-- Value of the two process bytes. -/
theorem proc_bytes_val (P : Nat) :
    P / 256 % 256 * 256 + P % 256 = P % 65536 := by omega

/-- Big-endian 128-bit value of a packed identifier. -/
theorem packID_valB (sh T c pid : Nat)
    (hT : T < 4294967296 * 3600000000000) (hc : c < 64) :
    valB 256 (packID sh (T : Int) c pid) =
      (sh % 65536) * 5192296858534827628530496329220096 +
      (T / 3600000000000) * 18446744073709551616 +
      (T % 3600000000000 / 60000000000) * 288230376151711744 +
      (T % 60000000000 / 1000000000) * 4503599627370496 +
      (T % 1000000000) * 4194304 + c * 65536 + pid % 65536 := by
  rw [packID_eq sh T c pid hT hc]
  set h := T / 3600000000000 with hdefh
  set m := T % 3600000000000 / 60000000000 with hdefm
  set s := T % 60000000000 / 1000000000 with hdefs
  set n := T % 1000000000 with hdefn
  have hh : h < 4294967296 := by omega
  simp only [valB, List.length_cons, List.length_nil]
  have q15 : (256 : Nat) ^ 15 = 1329227995784915872903807060280344576 := by norm_num
  have q14 : (256 : Nat) ^ 14 = 5192296858534827628530496329220096 := by norm_num
  have q13 : (256 : Nat) ^ 13 = 20282409603651670423947251286016 := by norm_num
  have q12 : (256 : Nat) ^ 12 = 79228162514264337593543950336 := by norm_num
  have q11 : (256 : Nat) ^ 11 = 309485009821345068724781056 := by norm_num
  have q10 : (256 : Nat) ^ 10 = 1208925819614629174706176 := by norm_num
  have q9 : (256 : Nat) ^ 9 = 4722366482869645213696 := by norm_num
  have q8 : (256 : Nat) ^ 8 = 18446744073709551616 := by norm_num
  have q7 : (256 : Nat) ^ 7 = 72057594037927936 := by norm_num
  have q6 : (256 : Nat) ^ 6 = 281474976710656 := by norm_num
  have q5 : (256 : Nat) ^ 5 = 1099511627776 := by norm_num
  have q4 : (256 : Nat) ^ 4 = 4294967296 := by norm_num
  have q3 : (256 : Nat) ^ 3 = 16777216 := by norm_num
  have q2 : (256 : Nat) ^ 2 = 65536 := by norm_num
  have q1 : (256 : Nat) ^ 1 = 256 := by norm_num
  have q0 : (256 : Nat) ^ 0 = 1 := by norm_num
  simp only [q15, q14, q13, q12, q11, q10, q9, q8, q7, q6, q5, q4, q3, q2, q1, q0]
  have eS := shard_bytes_val sh
  have ehh := hour_bytes_val h hh
  have ems := minsec_bytes_val m s (n / 67108864)
  have enn := nano_bytes_val n
  have ec := ctr_byte_val (n % 4) c
  have eP := proc_bytes_val pid
  omega

/-- Big-endian 64-bit value of the Key half of a packed identifier. -/
theorem packKey_valB (sh T c pid : Nat)
    (hT : T < 4294967296 * 3600000000000) (hc : c < 64) :
    valB 256 (ID.Split (packID sh (T : Int) c pid)).2 =
      (T % 3600000000000 / 60000000000) * 288230376151711744 +
      (T % 60000000000 / 1000000000) * 4503599627370496 +
      (T % 1000000000) * 4194304 + c * 65536 + pid % 65536 := by
  rw [packID_eq sh T c pid hT hc]
  unfold ID.Split
  simp only [List.drop_succ_cons, List.drop_zero]
  set m := T % 3600000000000 / 60000000000 with hdefm
  set s := T % 60000000000 / 1000000000 with hdefs
  set n := T % 1000000000 with hdefn
  simp only [valB, List.length_cons, List.length_nil]
  have q7 : (256 : Nat) ^ 7 = 72057594037927936 := by norm_num
  have q6 : (256 : Nat) ^ 6 = 281474976710656 := by norm_num
  have q5 : (256 : Nat) ^ 5 = 1099511627776 := by norm_num
  have q4 : (256 : Nat) ^ 4 = 4294967296 := by norm_num
  have q3 : (256 : Nat) ^ 3 = 16777216 := by norm_num
  have q2 : (256 : Nat) ^ 2 = 65536 := by norm_num
  have q1 : (256 : Nat) ^ 1 = 256 := by norm_num
  have q0 : (256 : Nat) ^ 0 = 1 := by norm_num
  simp only [q7, q6, q5, q4, q3, q2, q1, q0]
  have ems := minsec_bytes_val m s (n / 67108864)
  have enn := nano_bytes_val n
  have ec := ctr_byte_val (n % 4) c
  have eP := proc_bytes_val pid
  omega

/-- Big-endian 64-bit value of the Shard half of a packed identifier. -/
theorem packShard_valB (sh T c pid : Nat)
    (hT : T < 4294967296 * 3600000000000) (hc : c < 64) :
    valB 256 (ID.Split (packID sh (T : Int) c pid)).1 =
      (sh % 65536) * 281474976710656 + T / 3600000000000 := by
  rw [packID_eq sh T c pid hT hc]
  unfold ID.Split
  simp only [List.take_succ_cons, List.take_zero]
  set h := T / 3600000000000 with hdefh
  have hh : h < 4294967296 := by omega
  simp only [valB, List.length_cons, List.length_nil]
  have q7 : (256 : Nat) ^ 7 = 72057594037927936 := by norm_num
  have q6 : (256 : Nat) ^ 6 = 281474976710656 := by norm_num
  have q5 : (256 : Nat) ^ 5 = 1099511627776 := by norm_num
  have q4 : (256 : Nat) ^ 4 = 4294967296 := by norm_num
  have q3 : (256 : Nat) ^ 3 = 16777216 := by norm_num
  have q2 : (256 : Nat) ^ 2 = 65536 := by norm_num
  have q1 : (256 : Nat) ^ 1 = 256 := by norm_num
  have q0 : (256 : Nat) ^ 0 = 1 := by norm_num
  simp only [q7, q6, q5, q4, q3, q2, q1, q0]
  omega

/-- The packed bytes are in range (for in-range inputs). -/
theorem packID_isBytes (sh T c pid : Nat)
    (hT : T < 4294967296 * 3600000000000) (hc : c < 64) :
    IsBytes 16 (packID sh (T : Int) c pid) := by
  rw [packID_eq sh T c pid hT hc]
  refine ⟨rfl, ?_⟩
  intro b hb
  simp only [List.mem_cons, List.not_mem_nil, or_false] at hb
  rcases hb with rfl | rfl | rfl | rfl | rfl | rfl | rfl | rfl | rfl | rfl | rfl |
    rfl | rfl | rfl | rfl | rfl <;> omega

theorem isBytes_take8 {l : List Nat} (h : IsBytes 16 l) : IsBytes 8 (l.take 8) := by
  refine ⟨?_, fun b hb => h.2 b (List.take_subset 8 l hb)⟩
  rw [List.length_take, h.1]
  omega

theorem isBytes_drop8 {l : List Nat} (h : IsBytes 16 l) : IsBytes 8 (l.drop 8) := by
  refine ⟨?_, fun b hb => h.2 b (List.drop_subset 8 l hb)⟩
  rw [List.length_drop, h.1]

/-- Chronological-then-counter comparison of two generation events. -/
def evCompare (t₁ : Int) (c₁ : Nat) (t₂ : Int) (c₂ : Nat) : Ordering :=
  if t₁ < t₂ then .lt else if t₂ < t₁ then .gt else compare c₁ c₂

/-! ## Claim C5: byte-wise ordering -/

/-- C5 counterexample: the Key half alone does not order events across
hours — the first event (30 minutes past the hour) precedes the second
(top of the next hour), yet its Key half compares strictly greater. -/
theorem buid_C5_counterexample :
    ID.Time ((runCalls { id := 7, t := 0, counter := 0 }
        [ { shard := 3, ts := Epoch + 30 * minuteInNano, nows := [] },
          { shard := 3, ts := Epoch + hourInNano, nows := [] } ]).2.getD 0 []) <
      ID.Time ((runCalls { id := 7, t := 0, counter := 0 }
        [ { shard := 3, ts := Epoch + 30 * minuteInNano, nows := [] },
          { shard := 3, ts := Epoch + hourInNano, nows := [] } ]).2.getD 1 []) ∧
    byteCompare
        (ID.Split ((runCalls { id := 7, t := 0, counter := 0 }
          [ { shard := 3, ts := Epoch + 30 * minuteInNano, nows := [] },
            { shard := 3, ts := Epoch + hourInNano, nows := [] } ]).2.getD 0 [])).2
        (ID.Split ((runCalls { id := 7, t := 0, counter := 0 }
          [ { shard := 3, ts := Epoch + 30 * minuteInNano, nows := [] },
            { shard := 3, ts := Epoch + hourInNano, nows := [] } ]).2.getD 1 [])).2 =
      Ordering.gt := by decide

/-- C5 (amended): with the same shard index and process, byte-wise
comparison of two full identifiers equals the (embedded time, counter)
ordering of the events; the same holds for the Key halves provided the two
embedded times fall within the same hour; the Shard halves compare as the
hour-truncated times (so they are only non-strictly monotone in event
order). -/
theorem buid_C5_order (sh c₁ c₂ pid : Nat) (t₁ t₂ : Int)
    (hsh : sh < 65536) (hpid : pid < 65536) (h₁ : TOK t₁) (h₂ : TOK t₂)
    (hc₁ : c₁ < 64) (hc₂ : c₂ < 64) :
    byteCompare (packID sh t₁ c₁ pid) (packID sh t₂ c₂ pid) = evCompare t₁ c₁ t₂ c₂
  ∧ (truncHour t₁ = truncHour t₂ →
      byteCompare (ID.Split (packID sh t₁ c₁ pid)).2
        (ID.Split (packID sh t₂ c₂ pid)).2 = evCompare t₁ c₁ t₂ c₂)
  ∧ byteCompare (ID.Split (packID sh t₁ c₁ pid)).1
      (ID.Split (packID sh t₂ c₂ pid)).1 =
      evCompare (truncHour t₁) 0 (truncHour t₂) 0 := by
  obtain ⟨h10, h11⟩ := h₁
  obtain ⟨h20, h21⟩ := h₂
  rw [hourInNano_eq] at h11 h21
  obtain ⟨T₁, rfl⟩ : ∃ T : Nat, t₁ = (T : Int) := ⟨t₁.toNat, (Int.toNat_of_nonneg h10).symm⟩
  obtain ⟨T₂, rfl⟩ : ∃ T : Nat, t₂ = (T : Int) := ⟨t₂.toNat, (Int.toNat_of_nonneg h20).symm⟩
  have hT₁ : T₁ < 4294967296 * 3600000000000 := by omega
  have hT₂ : T₂ < 4294967296 * 3600000000000 := by omega
  have hw₁ := packID_isBytes sh T₁ c₁ pid hT₁ hc₁
  have hw₂ := packID_isBytes sh T₂ c₂ pid hT₂ hc₂
  have htr : truncHour (T₁ : Int) = (3600000000000 : Int) * (T₁ / 3600000000000 : Nat) := by
    unfold truncHour
    rw [hourInNano_eq]
    omega
  have htr2 : truncHour (T₂ : Int) = (3600000000000 : Int) * (T₂ / 3600000000000 : Nat) := by
    unfold truncHour
    rw [hourInNano_eq]
    omega
  refine ⟨?_, ?_, ?_⟩
  · rw [byteCompare_spec 256 _ _ (by rw [hw₁.1, hw₂.1]) hw₁.2 hw₂.2,
      packID_valB sh T₁ c₁ pid hT₁ hc₁, packID_valB sh T₂ c₂ pid hT₂ hc₂]
    unfold evCompare
    by_cases hT : T₁ < T₂
    · rw [if_pos (by omega)]
      exact Nat.compare_eq_lt.mpr (by omega)
    · by_cases hT' : T₂ < T₁
      · rw [if_neg (by omega), if_pos (by omega)]
        exact Nat.compare_eq_gt.mpr (by omega)
      · have he : T₁ = T₂ := by omega
        subst he
        rw [if_neg (by omega), if_neg (by omega)]
        rcases Nat.lt_trichotomy c₁ c₂ with h | h | h
        · rw [Nat.compare_eq_lt.mpr h, Nat.compare_eq_lt.mpr (by omega)]
        · rw [Nat.compare_eq_eq.mpr h, Nat.compare_eq_eq.mpr (by omega)]
        · rw [Nat.compare_eq_gt.mpr h, Nat.compare_eq_gt.mpr (by omega)]
  · intro hhour
    rw [htr, htr2] at hhour
    have hh : T₁ / 3600000000000 = T₂ / 3600000000000 := by omega
    have hk₁ : IsBytes 8 (ID.Split (packID sh (T₁ : Int) c₁ pid)).2 := isBytes_drop8 hw₁
    have hk₂ : IsBytes 8 (ID.Split (packID sh (T₂ : Int) c₂ pid)).2 := isBytes_drop8 hw₂
    rw [byteCompare_spec 256 _ _ (by rw [hk₁.1, hk₂.1]) hk₁.2 hk₂.2,
      packKey_valB sh T₁ c₁ pid hT₁ hc₁, packKey_valB sh T₂ c₂ pid hT₂ hc₂]
    unfold evCompare
    by_cases hT : T₁ < T₂
    · rw [if_pos (by omega)]
      exact Nat.compare_eq_lt.mpr (by omega)
    · by_cases hT' : T₂ < T₁
      · rw [if_neg (by omega), if_pos (by omega)]
        exact Nat.compare_eq_gt.mpr (by omega)
      · have he : T₁ = T₂ := by omega
        subst he
        rw [if_neg (by omega), if_neg (by omega)]
        rcases Nat.lt_trichotomy c₁ c₂ with h | h | h
        · rw [Nat.compare_eq_lt.mpr h, Nat.compare_eq_lt.mpr (by omega)]
        · rw [Nat.compare_eq_eq.mpr h, Nat.compare_eq_eq.mpr (by omega)]
        · rw [Nat.compare_eq_gt.mpr h, Nat.compare_eq_gt.mpr (by omega)]
  · have hs₁ : IsBytes 8 (ID.Split (packID sh (T₁ : Int) c₁ pid)).1 := isBytes_take8 hw₁
    have hs₂ : IsBytes 8 (ID.Split (packID sh (T₂ : Int) c₂ pid)).1 := isBytes_take8 hw₂
    rw [byteCompare_spec 256 _ _ (by rw [hs₁.1, hs₂.1]) hs₁.2 hs₂.2,
      packShard_valB sh T₁ c₁ pid hT₁ hc₁, packShard_valB sh T₂ c₂ pid hT₂ hc₂,
      htr, htr2]
    unfold evCompare
    have hhb₁ : T₁ / 3600000000000 < 4294967296 := by omega
    have hhb₂ : T₂ / 3600000000000 < 4294967296 := by omega
    by_cases hT : T₁ / 3600000000000 < T₂ / 3600000000000
    · rw [if_pos (by omega)]
      exact Nat.compare_eq_lt.mpr (by omega)
    · by_cases hT' : T₂ / 3600000000000 < T₁ / 3600000000000
      · rw [if_neg (by omega), if_pos (by omega)]
        exact Nat.compare_eq_gt.mpr (by omega)
      · have he : T₁ / 3600000000000 = T₂ / 3600000000000 := by omega
        rw [he, if_neg (by omega), if_neg (by omega),
          Nat.compare_eq_eq.mpr rfl, Nat.compare_eq_eq.mpr (by omega)]

/-- Witness for C5 at concrete events five and nine nanoseconds past the
Epoch. -/
theorem buid_C5_order_witness :
    byteCompare (packID 3 7 0 9) (packID 3 9 1 9) = evCompare 7 0 9 1
  ∧ (truncHour 7 = truncHour 9 →
      byteCompare (ID.Split (packID 3 7 0 9)).2
        (ID.Split (packID 3 9 1 9)).2 = evCompare 7 0 9 1)
  ∧ byteCompare (ID.Split (packID 3 7 0 9)).1
      (ID.Split (packID 3 9 1 9)).1 =
      evCompare (truncHour 7) 0 (truncHour 9) 0 :=
  buid_C5_order 3 0 1 9 7 9 (by decide) (by decide) (by decide) (by decide)
    (by decide) (by decide)

/-! ## Base conversion (for the text codec) -/

/-- Little-endian digits of `v` in base `b`, `n` digits. -/
def digitsLE (b : Nat) : Nat → Nat → List Nat
  | 0, _ => []
  | n + 1, v => v % b :: digitsLE b n (v / b)

/-- Big-endian fixed-width digits of `v` in base `b`. -/
def digitsBE (b n v : Nat) : List Nat := (digitsLE b n v).reverse

/-- Value of a little-endian digit string. -/
def valLE (b : Nat) : List Nat → Nat
  | [] => 0
  | d :: l => d + b * valLE b l

theorem length_digitsLE (b : Nat) : ∀ n v, (digitsLE b n v).length = n := by
  intro n
  induction n with
  | zero => intro v; rfl
  | succ n ih => intro v; simp [digitsLE, ih]

theorem digitsLE_lt (b : Nat) (hb : 0 < b) :
    ∀ n v d, d ∈ digitsLE b n v → d < b := by
  intro n
  induction n with
  | zero => intro v d hd; simp [digitsLE] at hd
  | succ n ih =>
    intro v d hd
    simp only [digitsLE, List.mem_cons] at hd
    rcases hd with rfl | hd
    · exact Nat.mod_lt v hb
    · exact ih (v / b) d hd

theorem valB_append (b : Nat) :
    ∀ l₁ l₂ : List Nat, valB b (l₁ ++ l₂) = valB b l₁ * b ^ l₂.length + valB b l₂ := by
  intro l₁
  induction l₁ with
  | nil => intro l₂; simp [valB]
  | cons d l ih =>
    intro l₂
    simp only [List.cons_append, valB, List.append_eq]
    rw [ih l₂, List.length_append, pow_add]
    ring

theorem valB_reverse (b : Nat) : ∀ l : List Nat, valB b l.reverse = valLE b l := by
  intro l
  induction l with
  | nil => rfl
  | cons d l ih =>
    simp only [List.reverse_cons, valB_append, valLE, valB, ih]
    simp [valB]
    ring

theorem valLE_digitsLE (b : Nat) :
    ∀ n v, valLE b (digitsLE b n v) = v % b ^ n := by
  intro n
  induction n with
  | zero => intro v; simp [digitsLE, valLE, Nat.mod_one]
  | succ n ih =>
    intro v
    simp only [digitsLE, valLE, ih]
    rw [pow_succ, Nat.mul_comm (b ^ n) b, Nat.mod_mul]

theorem digitsLE_valLE (b : Nat) (hb : 0 < b) :
    ∀ l : List Nat, (∀ d ∈ l, d < b) → digitsLE b l.length (valLE b l) = l := by
  intro l
  induction l with
  | nil => intro _; rfl
  | cons d l ih =>
    intro hd
    have h1 : d < b := hd d (List.mem_cons_self d l)
    simp only [valLE, List.length_cons, digitsLE]
    rw [Nat.add_mul_mod_self_left, Nat.mod_eq_of_lt h1,
      Nat.add_mul_div_left _ _ hb, Nat.div_eq_of_lt h1, Nat.zero_add,
      ih (fun x hx => hd x (List.mem_cons_of_mem d hx))]

theorem valB_digitsBE (b : Nat) {m V : Nat} (hV : V < b ^ m) :
    valB b (digitsBE b m V) = V := by
  unfold digitsBE
  rw [valB_reverse, valLE_digitsLE, Nat.mod_eq_of_lt hV]

theorem digitsBE_valB (b : Nat) (hb : 0 < b) (l : List Nat) (hl : ∀ d ∈ l, d < b) :
    digitsBE b l.length (valB b l) = l := by
  unfold digitsBE
  have h1 : valB b l = valLE b l.reverse := by
    have := valB_reverse b l.reverse
    rwa [List.reverse_reverse] at this
  have h2 : l.length = l.reverse.length := (List.length_reverse l).symm
  rw [h1, h2, digitsLE_valLE b hb l.reverse (fun d hd => hl d (List.mem_reverse.mp hd)),
    List.reverse_reverse]

/-! ## Text codec (modelled from the spec, §4.3: the codec source file is
not under src/, only its tests) -/

/-- Modelled from the spec: the 62-symbol alphabet of the text codec —
digits and upper/lower case letters in ASCII order, so that lexicographic
string order matches numeric big-endian byte order. -/
def alphabet : List Char :=
  "0123456789ABCDEFGHIJKLMNOPQRSTUVWXYZabcdefghijklmnopqrstuvwxyz".toList

/-- Modelled from the spec: the value of one character of the text form. -/
def charVal (ch : Char) : Nat := alphabet.indexOf ch

/-- Modelled from the spec: `ID.MarshalText` — the 128-bit value rendered
in fixed-width base 62 (22 characters suffice for 128 bits). -/
def ID.MarshalText (id : ID) : List Char :=
  (digitsBE 62 22 (valB 256 id)).map (fun d => alphabet.getD d ' ')

/-- Modelled from the spec: `Key.MarshalText` — the 64-bit value rendered
in fixed-width base 62 (11 characters suffice for 64 bits). -/
def Key.MarshalText (k : Key) : List Char :=
  (digitsBE 62 11 (valB 256 k)).map (fun d => alphabet.getD d ' ')

/-- Modelled from the spec: `ID.UnmarshalText` — reject wrong length or a
character outside the alphabet; otherwise decode base 62 into 16 bytes. -/
def ID.UnmarshalText (s : List Char) : Option ID :=
  if s.length = 22 ∧ ∀ ch ∈ s, ch ∈ alphabet then
    some (digitsBE 256 16 (valB 62 (s.map charVal)))
  else none

/-- Modelled from the spec: `Key.UnmarshalText`. -/
def Key.UnmarshalText (s : List Char) : Option Key :=
  if s.length = 11 ∧ ∀ ch ∈ s, ch ∈ alphabet then
    some (digitsBE 256 8 (valB 62 (s.map charVal)))
  else none

theorem alpha_getD_mem : ∀ d, d < 62 → alphabet.getD d ' ' ∈ alphabet := by decide

theorem charVal_getD : ∀ d, d < 62 → charVal (alphabet.getD d ' ') = d := by decide

theorem map_charVal_getD :
    ∀ ds : List Nat, (∀ d ∈ ds, d < 62) →
      ds.map (fun d => charVal (alphabet.getD d ' ')) = ds := by
  intro ds
  induction ds with
  | nil => intro _; rfl
  | cons d l ih =>
    intro hd
    simp only [List.map_cons, charVal_getD d (hd d (List.mem_cons_self d l)),
      ih (fun x hx => hd x (List.mem_cons_of_mem d hx))]

/-! ## Claims C6 and C7: text round-trip and fixed lengths -/

/-- C6: decoding the text encoding of any valid Identifier or Key returns
exactly the original bytes. -/
theorem buid_C6_text_roundtrip :
    (∀ id : ID, IsBytes 16 id → ID.UnmarshalText (ID.MarshalText id) = some id)
  ∧ (∀ k : Key, IsBytes 8 k → Key.UnmarshalText (Key.MarshalText k) = some k) := by
  constructor
  · rintro id ⟨hlen, hlt⟩
    unfold ID.MarshalText ID.UnmarshalText
    have hV : valB 256 id < 62 ^ 22 := by
      have h1 := valB_lt 256 (by norm_num) id hlt
      rw [hlen] at h1
      calc valB 256 id < 256 ^ 16 := h1
        _ ≤ 62 ^ 22 := by norm_num
    have hdigs : ∀ d ∈ digitsBE 62 22 (valB 256 id), d < 62 := by
      intro d hd
      exact digitsLE_lt 62 (by norm_num) 22 _ d (List.mem_reverse.mp hd)
    rw [if_pos ?hc]
    case hc =>
      constructor
      · rw [List.length_map]
        unfold digitsBE
        rw [List.length_reverse, length_digitsLE]
      · intro ch hch
        obtain ⟨d, hd, rfl⟩ := List.mem_map.mp hch
        exact alpha_getD_mem d (hdigs d hd)
    rw [List.map_map]
    have hmap : (digitsBE 62 22 (valB 256 id)).map (charVal ∘ fun d => alphabet.getD d ' ') =
        digitsBE 62 22 (valB 256 id) := map_charVal_getD _ hdigs
    rw [hmap, valB_digitsBE 62 hV, ← hlen, digitsBE_valB 256 (by norm_num) id hlt]
  · rintro k ⟨hlen, hlt⟩
    unfold Key.MarshalText Key.UnmarshalText
    have hV : valB 256 k < 62 ^ 11 := by
      have h1 := valB_lt 256 (by norm_num) k hlt
      rw [hlen] at h1
      calc valB 256 k < 256 ^ 8 := h1
        _ ≤ 62 ^ 11 := by norm_num
    have hdigs : ∀ d ∈ digitsBE 62 11 (valB 256 k), d < 62 := by
      intro d hd
      exact digitsLE_lt 62 (by norm_num) 11 _ d (List.mem_reverse.mp hd)
    rw [if_pos ?hck]
    case hck =>
      constructor
      · rw [List.length_map]
        unfold digitsBE
        rw [List.length_reverse, length_digitsLE]
      · intro ch hch
        obtain ⟨d, hd, rfl⟩ := List.mem_map.mp hch
        exact alpha_getD_mem d (hdigs d hd)
    rw [List.map_map]
    have hmap : (digitsBE 62 11 (valB 256 k)).map (charVal ∘ fun d => alphabet.getD d ' ') =
        digitsBE 62 11 (valB 256 k) := map_charVal_getD _ hdigs
    rw [hmap, valB_digitsBE 62 hV, ← hlen, digitsBE_valB 256 (by norm_num) k hlt]

/-- Witness for C6 at a concrete identifier and its key half. -/
theorem buid_C6_text_roundtrip_witness :
    ID.UnmarshalText (ID.MarshalText
        [0, 1, 2, 3, 4, 5, 6, 7, 8, 9, 10, 11, 12, 13, 14, 255]) =
      some [0, 1, 2, 3, 4, 5, 6, 7, 8, 9, 10, 11, 12, 13, 14, 255] ∧
    Key.UnmarshalText (Key.MarshalText [8, 9, 10, 11, 12, 13, 14, 255]) =
      some [8, 9, 10, 11, 12, 13, 14, 255] :=
  ⟨buid_C6_text_roundtrip.1 [0, 1, 2, 3, 4, 5, 6, 7, 8, 9, 10, 11, 12, 13, 14, 255]
      (by decide),
    buid_C6_text_roundtrip.2 [8, 9, 10, 11, 12, 13, 14, 255] (by decide)⟩

/-- C7: the text encoding of a 16-byte Identifier always has fixed length
22 — enough base-62 digits to represent 128 bits without loss — and the
encoding of an 8-byte Key always has the shorter fixed length 11. -/
theorem buid_C7_text_lengths :
    (∀ id : ID, IsBytes 16 id → (ID.MarshalText id).length = 22)
  ∧ (∀ k : Key, IsBytes 8 k → (Key.MarshalText k).length = 11)
  ∧ 11 < 22 ∧ 2 ^ 128 ≤ 62 ^ 22 ∧ 2 ^ 64 ≤ 62 ^ 11 := by
  refine ⟨?_, ?_, by norm_num, by norm_num, by norm_num⟩
  · intro id _
    unfold ID.MarshalText digitsBE
    rw [List.length_map, List.length_reverse, length_digitsLE]
  · intro k _
    unfold Key.MarshalText digitsBE
    rw [List.length_map, List.length_reverse, length_digitsLE]

/-- Witness for C7 at a concrete identifier and key. -/
theorem buid_C7_text_lengths_witness :
    (ID.MarshalText (List.replicate 16 255)).length = 22 ∧
    (Key.MarshalText (List.replicate 8 255)).length = 11 ∧ 11 < 22 :=
  ⟨buid_C7_text_lengths.1 (List.replicate 16 255) (by decide),
    buid_C7_text_lengths.2.1 (List.replicate 8 255) (by decide),
    buid_C7_text_lengths.2.2.1⟩

end Buid
